import Mathlib

set_option maxRecDepth 4000

/-!
Verification development for the enhanced Terraform module dependency
analyzer (`terraform-dependency-analyzer-enhanced.py`).

The Python source is embedded shallowly:

* `re.findall` over the three fixed regular expressions used by the
  analyzer is implemented directly on character lists (the patterns are
  literal prefixes followed by greedy `[a-zA-Z0-9_-]+` groups separated
  by dots; since the character class excludes `.`, matching is
  backtracking-free, and `findall` scans left to right emitting
  non-overlapping matches);
* Python dicts keyed by strings become association lists preserving
  insertion order (assignment to an existing key keeps its position);
* fallible parsing (`hcl2.loads` raising inside a `try`) becomes an
  `Option`-valued file content: `none` models a malformed file;
* the networkx graph becomes an explicit node list / edge list; the
  library calls `nx.simple_cycles`, `nx.all_simple_paths` and
  `nx.has_path` are third-party code and are modelled from their
  documented contracts (enumeration of elementary cycles, enumeration
  of all simple paths, existence of a directed path).
-/

namespace TGAnalyzer

/-- Character class `[a-zA-Z0-9_-]` used by all three regular expressions. -/
def identChar (c : Char) : Bool :=
  c.isAlpha || c.isDigit || c == '_' || c == '-'

/-- Longest prefix of identifier characters together with the rest
(the greedy `[a-zA-Z0-9_-]+` group, which never backtracks because the
class excludes `.`). -/
def takeIdent : List Char → List Char × List Char
  | [] => ([], [])
  | c :: cs =>
    if identChar c then
      let r := takeIdent cs
      (c :: r.1, r.2)
    else ([], c :: cs)

/-- Match a literal string prefix, returning the remaining input. -/
def dropLit : List Char → List Char → Option (List Char)
  | [], s => some s
  | _ :: _, [] => none
  | l :: ls, c :: cs => if l == c then dropLit ls cs else none

/-- One match attempt for `module\.([a-zA-Z0-9_-]+)\.([a-zA-Z0-9_-]+)`. -/
def matchModule (s : List Char) : Option ((String × String) × List Char) :=
  match dropLit "module.".data s with
  | none => none
  | some s1 =>
    let p1 := takeIdent s1
    if p1.1.isEmpty then none else
    match dropLit ".".data p1.2 with
    | none => none
    | some s2 =>
      let p2 := takeIdent s2
      if p2.1.isEmpty then none else
      some ((⟨p1.1⟩, ⟨p2.1⟩), p2.2)

/-- One match attempt for
`data\.([a-zA-Z0-9_-]+)\.([a-zA-Z0-9_-]+)\.([a-zA-Z0-9_-]+)`. -/
def matchData (s : List Char) : Option ((String × String × String) × List Char) :=
  match dropLit "data.".data s with
  | none => none
  | some s1 =>
    let p1 := takeIdent s1
    if p1.1.isEmpty then none else
    match dropLit ".".data p1.2 with
    | none => none
    | some s2 =>
      let p2 := takeIdent s2
      if p2.1.isEmpty then none else
      match dropLit ".".data p2.2 with
      | none => none
      | some s3 =>
        let p3 := takeIdent s3
        if p3.1.isEmpty then none else
        some ((⟨p1.1⟩, ⟨p2.1⟩, ⟨p3.1⟩), p3.2)

/-- One match attempt for
`data\.terraform_remote_state\.([a-zA-Z0-9_-]+)\.outputs\.([a-zA-Z0-9_-]+)`. -/
def matchRemoteState (s : List Char) : Option ((String × String) × List Char) :=
  match dropLit "data.terraform_remote_state.".data s with
  | none => none
  | some s1 =>
    let p1 := takeIdent s1
    if p1.1.isEmpty then none else
    match dropLit ".outputs.".data p1.2 with
    | none => none
    | some s2 =>
      let p2 := takeIdent s2
      if p2.1.isEmpty then none else
      some ((⟨p1.1⟩, ⟨p2.1⟩), p2.2)

/-- Left-to-right non-overlapping scan, as `re.findall` does: at each
position try a match; on success emit the groups and resume after the
match, otherwise advance one character.  Fuel is the input length
(every step consumes at least one character). -/
def findallAux {α : Type} (matcher : List Char → Option (α × List Char)) :
    Nat → List Char → List α
  | 0, _ => []
  | _, [] => []
  | fuel + 1, c :: cs =>
    match matcher (c :: cs) with
    | some (a, rest) => a :: findallAux matcher fuel rest
    | none => findallAux matcher fuel cs

/-- `re.findall(r'module\.([a-zA-Z0-9_-]+)\.([a-zA-Z0-9_-]+)', s)`. -/
def findallModule (s : String) : List (String × String) :=
  findallAux matchModule s.data.length s.data

/-- `re.findall(r'data\.([a-zA-Z0-9_-]+)\.([a-zA-Z0-9_-]+)\.([a-zA-Z0-9_-]+)', s)`. -/
def findallData (s : String) : List (String × String × String) :=
  findallAux matchData s.data.length s.data

/-- `re.findall(r'data\.terraform_remote_state\.([a-zA-Z0-9_-]+)\.outputs\.([a-zA-Z0-9_-]+)', s)`. -/
def findallRemoteState (s : String) : List (String × String) :=
  findallAux matchRemoteState s.data.length s.data

/-- Python `str` of a dict whose keys and values are strings, e.g.
`str({'a': 'module.b.c'})`; this is the `variables_str = str(variables_)`
serialization the analyzer scans. -/
def myIntercalate (sep : String) : List String → String
  | [] => ""
  | [x] => x
  | x :: y :: xs => x ++ sep ++ myIntercalate sep (y :: xs)

/-- Serialization of a string-keyed, string-valued Python dict. -/
def pyDictStr (l : List (String × String)) : String :=
  "\x7b" ++ myIntercalate ", " (l.map (fun kv => "'" ++ kv.1 ++ "': '" ++ kv.2 ++ "'")) ++ "\x7d"

/-- Python `s.startswith(p)`. -/
def listStartsWith : List Char → List Char → Bool
  | _, [] => true
  | [], _ :: _ => false
  | c :: cs, d :: ds => c == d && listStartsWith cs ds

/-- Python `s.startswith(p)` on strings. -/
def pyStartsWith (s p : String) : Bool := listStartsWith s.data p.data

/-- Python `s.split(sep)` for a one-character separator (keeps empty
segments, and the split of the empty string is `[""]`). -/
def splitChars (sep : Char) : List Char → List (List Char)
  | [] => [[]]
  | c :: cs =>
    match splitChars sep cs with
    | [] => [[]]
    | h :: t => if c == sep then [] :: h :: t else (c :: h) :: t

/-- Python `s.split('/')`. -/
def pySplitSlash (s : String) : List String :=
  (splitChars '/' s.data).map (fun l => ⟨l⟩)

/-- `DependencyInfo` dataclass (the `line_number` field is never set by
the analyzer and is omitted). -/
structure DependencyInfo where
  source_module : String
  target_module : String
  dependency_type : String
  reference_path : String
  file_path : Option String
  deriving DecidableEq

/-- `ModuleInfo` dataclass.  `variables_` is the insertion-ordered dict of
declared inputs (modelled for string values); all other collection
fields are the Python lists. -/
structure ModuleInfo where
  name : String
  source : String
  path : String
  variables_ : List (String × String)
  outputs : List String
  dependencies : List String
  terragrunt_dependencies : List String
  data_sources : List String
  resources : List String
  dependency_details : List DependencyInfo
  complexity_score : Nat
  deriving DecidableEq

/-- A fresh `ModuleInfo` as built by the dataclass defaults. -/
def mkModuleInfo (name source path : String) : ModuleInfo :=
  ⟨name, source, path, [], [], [], [], [], [], [], 0⟩

/-- `_calculate_complexity_score`: base 1, dependencies ×2, terragrunt
dependencies ×2, variables_ ×1, outputs ×1, data sources ×3, resources ×2. -/
def calculate_complexity_score (m : ModuleInfo) : Nat :=
  1 + m.dependencies.length * 2 + m.terragrunt_dependencies.length * 2 +
    m.variables_.length + m.outputs.length + m.data_sources.length * 3 +
    m.resources.length * 2

/-- Step of the module-reference loop of `_analyze_variable_dependencies`:
references to a module other than the current one are appended to
`dependencies` and recorded with type `module_output`; self-matches are
skipped. -/
def varModuleStep (filePath : String) (acc : ModuleInfo) (r : String × String) : ModuleInfo :=
  if r.1 ≠ acc.name then
    { acc with
      dependencies := acc.dependencies ++ [r.1],
      dependency_details := acc.dependency_details ++
        [⟨acc.name, r.1, "module_output", "module." ++ r.1 ++ "." ++ r.2, some filePath⟩] }
  else acc

/-- Step of the data-source loop of `_analyze_variable_dependencies`. -/
def varDataStep (filePath : String) (acc : ModuleInfo) (r : String × String × String) : ModuleInfo :=
  { acc with
    data_sources := acc.data_sources ++ [r.1 ++ "." ++ r.2.1],
    dependency_details := acc.dependency_details ++
      [⟨acc.name, r.1 ++ "." ++ r.2.1, "data_source",
        "data." ++ r.1 ++ "." ++ r.2.1 ++ "." ++ r.2.2, some filePath⟩] }

/-- Step of the remote-state loop of `_analyze_variable_dependencies`. -/
def varRemoteStep (filePath : String) (acc : ModuleInfo) (r : String × String) : ModuleInfo :=
  { acc with
    dependency_details := acc.dependency_details ++
      [⟨acc.name, "remote_state." ++ r.1, "remote_state",
        "data.terraform_remote_state." ++ r.1 ++ ".outputs." ++ r.2, some filePath⟩] }

/-- `_analyze_variable_dependencies` applied to the stringified
variables_ payload: three independent `findall` passes, in source order. -/
def analyze_variable_dependencies (m : ModuleInfo) (variablesStr : String)
    (filePath : String) : ModuleInfo :=
  (findallRemoteState variablesStr).foldl (varRemoteStep filePath)
    ((findallData variablesStr).foldl (varDataStep filePath)
      ((findallModule variablesStr).foldl (varModuleStep filePath) m))

/-- Step of `_extract_module_dependencies` (type `module_reference`,
same self-match discard as the variable pass). -/
def extractModuleStep (filePath : String) (acc : ModuleInfo) (r : String × String) : ModuleInfo :=
  if r.1 ≠ acc.name then
    { acc with
      dependencies := acc.dependencies ++ [r.1],
      dependency_details := acc.dependency_details ++
        [⟨acc.name, r.1, "module_reference", "module." ++ r.1 ++ "." ++ r.2, some filePath⟩] }
  else acc

/-- `_extract_module_dependencies` over `str(module_config)`. -/
def extract_module_dependencies (m : ModuleInfo) (configStr : String)
    (filePath : String) : ModuleInfo :=
  (findallModule configStr).foldl (extractModuleStep filePath) m

/-- Parsed content of a `terragrunt.hcl` file: the optional
`terraform.source`, the `dependency` blocks flattened to
`(name, config_path?)` pairs, and the optional `inputs` dict. -/
structure TGParsed where
  terraformSource : Option String
  dependencyBlocks : List (String × Option String)
  inputs : Option (List (String × String))
  deriving DecidableEq

/-- A discovered `terragrunt.hcl` file; `content = none` models a file
on which `hcl2.loads` raises. -/
structure TGFile where
  dirName : String
  dirPath : String
  filePath : String
  content : Option TGParsed
  deriving DecidableEq

/-- Step of the dependency-block loop of `parse_terragrunt_file`: a
`config_path` starting with `../../` contributes its final path segment
as a terragrunt dependency (no self-match filter here). -/
def tgDependencyStep (filePath : String) (acc : ModuleInfo)
    (dep : String × Option String) : ModuleInfo :=
  match dep.2 with
  | none => acc
  | some cp =>
    if pyStartsWith cp "../../" then
      let parts := pySplitSlash cp
      if 2 ≤ parts.length then
        let moduleName := parts.getLastD ""
        { acc with
          terragrunt_dependencies := acc.terragrunt_dependencies ++ [moduleName],
          dependency_details := acc.dependency_details ++
            [⟨acc.name, moduleName, "terragrunt", cp, some filePath⟩] }
      else acc
    else acc

/-- The stored-score update done at the end of `parse_terragrunt_file`
(`module_info.complexity_score = self._calculate_complexity_score(...)`). -/
def setScore (m : ModuleInfo) : ModuleInfo :=
  { m with complexity_score := calculate_complexity_score m }

/-- The descriptor built from a parsed terragrunt file before the final
complexity-score assignment. -/
def tgDescriptor (f : TGFile) (p : TGParsed) : ModuleInfo :=
  match p.inputs with
  | some ins =>
    analyze_variable_dependencies
      { p.dependencyBlocks.foldl (tgDependencyStep f.filePath)
          (mkModuleInfo f.dirName (p.terraformSource.getD "") f.dirPath) with
        variables_ := ins }
      (pyDictStr ins) f.filePath
  | none =>
    p.dependencyBlocks.foldl (tgDependencyStep f.filePath)
      (mkModuleInfo f.dirName (p.terraformSource.getD "") f.dirPath)

/-- `parse_terragrunt_file`: returns `none` on a malformed file (the
Python code logs and returns `None` from the `except` arm); otherwise
builds the module named after the containing directory, extracts
terragrunt dependencies and input references, and finally stores the
complexity score (`setScore`). -/
def parse_terragrunt_file (f : TGFile) : Option ModuleInfo :=
  f.content.map (fun p => setScore (tgDescriptor f p))

/-- The module registry `self.dependency_graph.modules`: an
insertion-ordered Python dict from module name to `ModuleInfo`. -/
abbrev Registry : Type := List (String × ModuleInfo)

/-- Keys of the registry dict, in insertion order. -/
def regKeys (reg : Registry) : List String :=
  reg.map Prod.fst

/-- Python dict assignment `modules[k] = v`: replaces in place if the
key exists (keeping its position), otherwise appends. -/
def setReg : Registry → String → ModuleInfo → Registry
  | [], k, v => [(k, v)]
  | kv :: rest, k, v =>
    if kv.1 = k then (k, v) :: rest else kv :: setReg rest k v

/-- In-place mutation `f(modules[k])` of an existing entry; absent keys
are left untouched (callers guard with `k in modules`). -/
def updateReg : Registry → String → (ModuleInfo → ModuleInfo) → Registry
  | [], _, _ => []
  | kv :: rest, k, f =>
    if kv.1 = k then (kv.1, f kv.2) :: rest else kv :: updateReg rest k f

/-- An inline `module` block of a Terraform file: declared name, the
`source` field (`module_config.get('source', '')`), the optional
`variables` payload, and `str(module_config)` which the module-reference
extraction scans. -/
structure TFModuleBlock where
  name : String
  source : String
  variables_ : Option (List (String × String))
  configStr : String
  deriving DecidableEq

/-- Parsed content of a `.tf` file: module blocks, data blocks
`(data_name, str(data_config))`, output blocks
`(output_name, str(value) when a value field exists)`, and resource
blocks `(resource_type, str(resource_config))`, each flattened in
source order. -/
structure TFParsed where
  moduleBlocks : List TFModuleBlock
  dataBlocks : List (String × String)
  outputBlocks : List (String × Option String)
  resourceBlocks : List (String × String)
  deriving DecidableEq

/-- A discovered `.tf` file; `content = none` models a file on which
`hcl2.loads` raises (the per-file `except` arm logs and continues). -/
structure TFFile where
  dirPath : String
  filePath : String
  content : Option TFParsed
  deriving DecidableEq

/-- Processing of one inline `module` block by `parse_terraform_files`:
build the descriptor, analyze the variables payload when present, then
extract module references from the whole configuration string.  No
complexity score is ever computed on this code path. -/
def processTFModuleBlock (dirPath filePath : String) (b : TFModuleBlock) : ModuleInfo :=
  extract_module_dependencies
    (match b.variables_ with
     | some vs =>
       analyze_variable_dependencies
         { mkModuleInfo b.name b.source dirPath with variables_ := vs }
         (pyDictStr vs) filePath
     | none => mkModuleInfo b.name b.source dirPath)
    b.configStr filePath

/-- `_analyze_data_source_dependencies`: module references found in a
data block append a `data_source_module` record to the referenced
module's details when that module is already registered. -/
def analyze_data_source_dependencies (dataName configStr filePath : String)
    (reg : Registry) : Registry :=
  (findallModule configStr).foldl
    (fun reg r =>
      if r.1 ∈ regKeys reg then
        updateReg reg r.1 (fun m =>
          { m with dependency_details := m.dependency_details ++
              [⟨"data." ++ dataName, r.1, "data_source_module",
                "module." ++ r.1 ++ "." ++ r.2, some filePath⟩] })
      else reg) reg

/-- `_analyze_output_dependencies`: module references found in an output
value append the referenced output name to the referenced module's
`outputs` (deduplicated), when that module is already registered. -/
def analyze_output_dependencies (valueStr : String) (reg : Registry) : Registry :=
  (findallModule valueStr).foldl
    (fun reg r =>
      if r.1 ∈ regKeys reg then
        updateReg reg r.1 (fun m =>
          if r.2 ∈ m.outputs then m else { m with outputs := m.outputs ++ [r.2] })
      else reg) reg

/-- `_analyze_resource_dependencies`: module references found in a
resource block append a `resource_module` record to the referenced
module's details when that module is already registered. -/
def analyze_resource_dependencies (resourceType configStr filePath : String)
    (reg : Registry) : Registry :=
  (findallModule configStr).foldl
    (fun reg r =>
      if r.1 ∈ regKeys reg then
        updateReg reg r.1 (fun m =>
          { m with dependency_details := m.dependency_details ++
              [⟨"resource." ++ resourceType, r.1, "resource_module",
                "module." ++ r.1 ++ "." ++ r.2, some filePath⟩] })
      else reg) reg

/-- One iteration of the `parse_terraform_files` loop: a malformed file
is skipped; otherwise module blocks are registered, then data, output
and resource blocks are analyzed, in source order. -/
def processTerraformFile (reg : Registry) (f : TFFile) : Registry :=
  match f.content with
  | none => reg
  | some p =>
    p.resourceBlocks.foldl
      (fun reg r => analyze_resource_dependencies r.1 r.2 f.filePath reg)
      (p.outputBlocks.foldl
        (fun reg o =>
          match o.2 with
          | some v => analyze_output_dependencies v reg
          | none => reg)
        (p.dataBlocks.foldl
          (fun reg d => analyze_data_source_dependencies d.1 d.2 f.filePath reg)
          (p.moduleBlocks.foldl
            (fun reg b => setReg reg b.name (processTFModuleBlock f.dirPath f.filePath b))
            reg)))

/-- The registry produced by `analyze`: Terragrunt files first (a file
whose parse fails contributes nothing), then Terraform files. -/
def registryOf (tg : List TGFile) (tf : List TFFile) : Registry :=
  tf.foldl processTerraformFile
    (tg.foldl
      (fun reg f =>
        match parse_terragrunt_file f with
        | some m => setReg reg m.name m
        | none => reg) [])

/-- The `nx.DiGraph`: node list and edge list, both insertion-ordered
and duplicate-free the way networkx stores them. -/
structure Digraph where
  nodes : List String
  edges : List (String × String)
  deriving DecidableEq

/-- `G.add_node`: a no-op when the node is already present. -/
def addNode (g : Digraph) (v : String) : Digraph :=
  if v ∈ g.nodes then g else { g with nodes := g.nodes ++ [v] }

/-- `G.add_edge`: inserts missing endpoints and collapses duplicate
edges (a graph, not a multigraph). -/
def addEdge (g : Digraph) (a b : String) : Digraph :=
  if (a, b) ∈ (addNode (addNode g a) b).edges then addNode (addNode g a) b
  else { addNode (addNode g a) b with
         edges := (addNode (addNode g a) b).edges ++ [(a, b)] }

/-- `build_dependency_graph`: one node per registry entry, then for each
module an edge `(dep → module)` for every entry of `dependencies` and
`terragrunt_dependencies` that names a registered module. -/
def build_dependency_graph (reg : Registry) : Digraph :=
  reg.foldl
    (fun g kv =>
      kv.2.terragrunt_dependencies.foldl
        (fun g dep => if dep ∈ regKeys reg then addEdge g dep kv.1 else g)
        (kv.2.dependencies.foldl
          (fun g dep => if dep ∈ regKeys reg then addEdge g dep kv.1 else g) g))
    (reg.foldl (fun g kv => addNode g kv.1) ⟨[], []⟩)

/-- All duplicate-free lists over the (deduplicated) node list: the
candidate space for simple cycles and simple paths. -/
def nodupLists (ns : List String) : List (List String) :=
  ns.dedup.sublists.flatMap List.permutations'

/-- Check that a nonempty list is a closed walk of the graph: each
element has an edge to its cyclic successor (a one-element list needs a
self-loop edge). -/
def cycleCheck (g : Digraph) (c : List String) : Bool :=
  !c.isEmpty &&
    (List.range c.length).all
      (fun i => decide ((c.getD i "", c.getD ((i + 1) % c.length) "") ∈ g.edges))

/-- Model of the third-party `nx.simple_cycles` from its documented
contract: the list of elementary cycles of the graph (duplicate-free
node lists whose cyclic consecutive pairs are all edges).  The model
enumerates every rotation; the claims proved below only rely on at
least one rotation of each elementary cycle being present, which is
what the library contract guarantees. -/
def simple_cycles (g : Digraph) : List (List String) :=
  (nodupLists g.nodes).filter (cycleCheck g)

/-- `detect_circular_dependencies` (the `except NetworkXNoCycle` arm of
the source is dead code: `nx.simple_cycles` does not raise it). -/
def detect_circular_dependencies (g : Digraph) : List (List String) :=
  simple_cycles g

/-- Check that a list is a simple path from `s` to `t`: at least one
edge, correct endpoints, every consecutive pair an edge. -/
def pathCheck (g : Digraph) (s t : String) (p : List String) : Bool :=
  decide (2 ≤ p.length) && p.head? == some s && p.getLast? == some t &&
    (List.range (p.length - 1)).all
      (fun i => decide ((p.getD i "", p.getD (i + 1) "") ∈ g.edges))

/-- Model of the third-party `nx.all_simple_paths` from its documented
contract: all simple paths (duplicate-free node lists) from `s` to `t`. -/
def all_simple_paths (g : Digraph) (s t : String) : List (List String) :=
  (nodupLists g.nodes).filter (pathCheck g s t)

/-- Model of the third-party `nx.has_path` from its documented contract:
a directed path from `u` to `v` exists (trivially true for `u = v`; for
distinct endpoints some simple path must exist). -/
def has_path (g : Digraph) (u v : String) : Bool :=
  u == v || !(all_simple_paths g u v).isEmpty

/-- `analyze_dependency_paths`: for every ordered pair of distinct
registry modules with at least one simple path, record all simple paths
under the key `"source->target"`. -/
def analyze_dependency_paths (reg : Registry) (g : Digraph) :
    List (String × List (List String)) :=
  reg.flatMap (fun s =>
    reg.flatMap (fun t =>
      if s.1 ≠ t.1 then
        if (all_simple_paths g s.1 t.1).isEmpty then []
        else [(s.1 ++ "->" ++ t.1, all_simple_paths g s.1 t.1)]
      else []))

/-- `analyze_impact`: an unknown module yields the empty set; otherwise
every other registry module reachable from `module_name` (checked with
`nx.has_path`) is collected. -/
def analyze_impact (reg : Registry) (g : Digraph) (moduleName : String) : List String :=
  if moduleName ∈ regKeys reg then
    ((reg.filter
      (fun kv => kv.1 ≠ moduleName ∧ has_path g moduleName kv.1 = true)).map Prod.fst)
  else []

/-- `generate_impact_report` data. -/
structure ImpactReport where
  high_impact_modules : List (String × Nat × List String)
  module_impact_analysis : List (String × List String × Nat)
  recommendations : List String
  deriving DecidableEq

/-- Recommendation string built for each high-impact module. -/
def recommendationFor (moduleName : String) (impactCount : Nat) : String :=
  "Module '" ++ moduleName ++ "' has high impact (" ++ toString impactCount ++
    " affected modules). Consider breaking it into smaller modules or using data sources to reduce coupling."

/-- `generate_impact_report`: per-module impact sets, the list of
modules affecting more than 3 others, and one recommendation per
high-impact module. -/
def generate_impact_report (reg : Registry) (g : Digraph) : ImpactReport :=
  let analysis := reg.map
    (fun kv =>
      let s := analyze_impact reg g kv.1
      (kv.1, s, s.length))
  let high := (analysis.filter (fun a => 3 < a.2.2)).map (fun a => (a.1, a.2.2, a.2.1))
  { high_impact_modules := high,
    module_impact_analysis := analysis,
    recommendations := high.map (fun h => recommendationFor h.1 h.2.1) }

/-- The full report produced by `analyze`. -/
structure AnalysisResults where
  modules : Registry
  circular_dependencies : List (List String)
  dependency_paths : List (String × List (List String))
  impact_analysis : ImpactReport
  total_modules : Nat
  total_dependencies : Nat
  high_complexity : List String
  medium_complexity : List String
  low_complexity : List String
  deriving DecidableEq

/-- `analyze`: the whole pipeline — parse all files into the registry,
build the graph, then run cycle, path, impact and complexity analysis. -/
def analyze (tg : List TGFile) (tf : List TFFile) : AnalysisResults :=
  { modules := registryOf tg tf,
    circular_dependencies :=
      detect_circular_dependencies (build_dependency_graph (registryOf tg tf)),
    dependency_paths :=
      analyze_dependency_paths (registryOf tg tf) (build_dependency_graph (registryOf tg tf)),
    impact_analysis :=
      generate_impact_report (registryOf tg tf) (build_dependency_graph (registryOf tg tf)),
    total_modules := (registryOf tg tf).length,
    total_dependencies := (build_dependency_graph (registryOf tg tf)).edges.length,
    high_complexity :=
      (((registryOf tg tf).filter
        (fun kv => 10 < kv.2.complexity_score)).map Prod.fst),
    medium_complexity :=
      (((registryOf tg tf).filter
        (fun kv => 5 < kv.2.complexity_score ∧ kv.2.complexity_score ≤ 10)).map Prod.fst),
    low_complexity :=
      (((registryOf tg tf).filter
        (fun kv => kv.2.complexity_score ≤ 5)).map Prod.fst) }

/-- The edge relation of a graph. -/
def EdgeRel (g : Digraph) (a b : String) : Prop := (a, b) ∈ g.edges

/-- Spec-side reachability: reflexive–transitive closure of the edge
relation ("reachable from `M` via directed edges"). -/
def Reaches (g : Digraph) : String → String → Prop :=
  Relation.ReflTransGen (EdgeRel g)

/-- The complexity formula exactly as the specification states it
(spec §4.3): `1 + 2×|directDependencies| + 2×|externalDependencies| +
|declaredVariables| + |declaredOutputs| + 3×|dataSources|`.  Stated
from the spec's words, for comparison with
`calculate_complexity_score`. -/
def specComplexityFormula (m : ModuleInfo) : Nat :=
  1 + 2 * m.dependencies.length + 2 * m.terragrunt_dependencies.length +
    m.variables_.length + m.outputs.length + 3 * m.data_sources.length

/-- Module names that some discovered file actually defines: directory
names of parseable terragrunt files and declared names of module blocks
in parseable terraform files. -/
def definedNames (tg : List TGFile) (tf : List TFFile) : List String :=
  tg.filterMap (fun f => f.content.map (fun _ => f.dirName)) ++
    tf.flatMap (fun f =>
      match f.content with
      | some p => p.moduleBlocks.map TFModuleBlock.name
      | none => [])

/-- Well-formedness of a graph: every edge endpoint is a node. -/
def WF (g : Digraph) : Prop :=
  ∀ e ∈ g.edges, e.1 ∈ g.nodes ∧ e.2 ∈ g.nodes

/-- Concrete two-module registry (B depends on A) used to witness C1. -/
def c1Reg : Registry :=
  [("A", mkModuleInfo "A" "" "/r/A"),
   ("B", { mkModuleInfo "B" "" "/r/B" with dependencies := ["A"] })]

/-- The conclusion of claim C7 at a registry, graph and ordered pair:
the key is present iff a simple path exists, its value lists all simple
paths, no entry is empty, and membership in the path list is exactly
being a simple path of the graph. -/
def C7Conclusion (reg : Registry) (g : Digraph) (s t : String) : Prop :=
  ((∃ v, (s ++ "->" ++ t, v) ∈ analyze_dependency_paths reg g) ↔
    all_simple_paths g s t ≠ []) ∧
  (∀ v, (s ++ "->" ++ t, v) ∈ analyze_dependency_paths reg g →
    v = all_simple_paths g s t) ∧
  (∀ kv ∈ analyze_dependency_paths reg g, kv.2 ≠ []) ∧
  (∀ p, p ∈ all_simple_paths g s t ↔
    (2 ≤ p.length ∧ p.head? = some s ∧ p.getLast? = some t ∧ p.Nodup ∧
      (∀ x ∈ p, x ∈ g.nodes) ∧ List.Chain' (EdgeRel g) p))

/-- Registry whose module names make two distinct ordered pairs produce
the same `"source->target"` key: the pair `("a", "b->c")` and the pair
`("a->b", "c")` both yield the key `"a->b->c"`. -/
def c7CexReg : Registry :=
  [("a", mkModuleInfo "a" "" ""),
   ("b->c", mkModuleInfo "b->c" "" ""),
   ("a->b", mkModuleInfo "a->b" "" ""),
   ("c", { mkModuleInfo "c" "" "" with dependencies := ["a->b"] })]

/-- Concrete two-module registry (B depends on A) used to witness C7. -/
def c7Reg : Registry :=
  [("A", mkModuleInfo "A" "" "/r/A"),
   ("B", { mkModuleInfo "B" "" "/r/B" with dependencies := ["A"] })]

/-- Concrete terraform file declaring one inline module block, used as
counterexample input for C3. -/
def c3File : TFFile :=
  ⟨"/r", "/r/main.tf", some ⟨[⟨"app", "", none, ""⟩], [], [], []⟩⟩

/-- Concrete terragrunt file with one input, used to witness the
amended C3. -/
def c3TGFile : TGFile :=
  ⟨"A", "/r/A", "/r/A/terragrunt.hcl", some ⟨none, [], some [("x", "1")]⟩⟩

/-- The descriptor `parse_terragrunt_file` produces for `c3TGFile`. -/
def c3Module : ModuleInfo :=
  ⟨"A", "", "/r/A", [("x", "1")], [], [], [], [], [], [], 2⟩

/-- Concrete terragrunt file whose dependency block points back at the
module's own directory name, used as counterexample input for C4. -/
def c4File : TGFile :=
  ⟨"A", "/r/A", "/r/A/terragrunt.hcl",
    some ⟨none, [("dep1", some "../../stacks/A")], none⟩⟩

/-- Loop invariant for the variable-dependency pass: the name is fixed
and every new record of kind `module_output` has distinct source and
target, every new dependency entry differs from the module name. -/
def invC4 (m : ModuleInfo) (acc : ModuleInfo) : Prop :=
  acc.name = m.name ∧
  (∀ r ∈ acc.dependency_details, r ∈ m.dependency_details ∨
    (r.dependency_type = "module_output" → r.source_module ≠ r.target_module)) ∧
  (∀ x ∈ acc.dependencies, x ∈ m.dependencies ∨ x ≠ m.name)

/-- Loop invariant for the module-configuration pass: every new record
is a `module_reference` with distinct source and target. -/
def invC4' (m : ModuleInfo) (acc : ModuleInfo) : Prop :=
  acc.name = m.name ∧
  (∀ r ∈ acc.dependency_details, r ∈ m.dependency_details ∨
    (r.dependency_type = "module_reference" ∧ r.source_module ≠ r.target_module)) ∧
  (∀ x ∈ acc.dependencies, x ∈ m.dependencies ∨ x ≠ m.name)

/-- Concrete module state used to witness the amended C4. -/
def c4M : ModuleInfo := mkModuleInfo "A" "" "/r/A"

/-- Concrete variables payload mixing a self-reference (`module.A.x`,
discarded) and a foreign reference (`module.B.y`, kept). -/
def c4Str : String := pyDictStr [("k", "module.A.x and module.B.y")]

/-- The reference record the extraction produces for `module.B.y`. -/
def c4Rec : DependencyInfo := ⟨"A", "B", "module_output", "module.B.y", some "f"⟩

/-- Concrete variables payload containing a single remote-state span,
used for C6. -/
def c6Input : List (String × String) :=
  [("k", "data.terraform_remote_state.vpc.outputs.id")]

/-- Concrete terragrunt file referencing the undefined module `B`, used
for the C5 counterexample and witness. -/
def c5File : TGFile :=
  ⟨"A", "/r/A", "/r/A/terragrunt.hcl", some ⟨none, [], some [("k", "module.B.out")]⟩⟩

/-- A malformed terragrunt file, used to witness C9. -/
def c9BadTG : TGFile := ⟨"bad", "/r/bad", "/r/bad/terragrunt.hcl", none⟩

/-- Conclusion of claim C10 for a given file set: the three complexity
buckets of the report cover every registry module and are pairwise
disjoint. -/
def C10Conclusion (tg : List TGFile) (tf : List TFFile) : Prop :=
  (∀ n, n ∈ regKeys (analyze tg tf).modules ↔
    (n ∈ (analyze tg tf).high_complexity ∨ n ∈ (analyze tg tf).medium_complexity ∨
      n ∈ (analyze tg tf).low_complexity)) ∧
  (∀ n, ¬(n ∈ (analyze tg tf).high_complexity ∧ n ∈ (analyze tg tf).medium_complexity)) ∧
  (∀ n, ¬(n ∈ (analyze tg tf).high_complexity ∧ n ∈ (analyze tg tf).low_complexity)) ∧
  (∀ n, ¬(n ∈ (analyze tg tf).medium_complexity ∧ n ∈ (analyze tg tf).low_complexity))

/-- Concrete terragrunt file used to witness C10. -/
def c10File : TGFile := ⟨"M", "/r/M", "/r/M/terragrunt.hcl", some ⟨none, [], none⟩⟩

section Helpers

/-- Fold invariant: a property preserved by every step along the list
holds of the result. -/
theorem foldl_invariant {α β : Type} (P : α → Prop) (step : α → β → α)
    (l : List β) (h : ∀ a b, b ∈ l → P a → P (step a b)) :
    ∀ a, P a → P (l.foldl step a) := by
  induction l with
  | nil => intro a ha; exact ha
  | cons x xs ih =>
    intro a ha
    exact ih (fun a b hb => h a b (List.mem_cons_of_mem _ hb)) _
      (h a x (List.mem_cons_self _ _) ha)

/-- Fold congruence for a projection each step leaves unchanged. -/
theorem foldl_proj_eq {α β γ : Type} (proj : α → γ) (step : α → β → α)
    (h : ∀ a b, proj (step a b) = proj a) :
    ∀ (l : List β) (a), proj (l.foldl step a) = proj a := by
  intro l
  induction l with
  | nil => intro a; rfl
  | cons x xs ih => intro a; rw [List.foldl_cons, ih, h]

/-- Fold monotonicity for a list-valued projection each step only
extends. -/
theorem foldl_proj_mem {α β γ : Type} (proj : α → List γ) (step : α → β → α)
    (h : ∀ a b x, x ∈ proj a → x ∈ proj (step a b)) :
    ∀ (l : List β) (a) (x), x ∈ proj a → x ∈ proj (l.foldl step a) := by
  intro l
  induction l with
  | nil => intro a x hx; exact hx
  | cons b bs ih => intro a x hx; exact ih _ _ (h a b x hx)

/-- Every duplicate-free list drawn from `ns` is enumerated by
`nodupLists ns`. -/
theorem mem_nodupLists {c ns : List String} (h1 : c.Nodup)
    (h2 : ∀ x ∈ c, x ∈ ns) : c ∈ nodupLists ns := by
  have hsub : List.Subperm c ns.dedup :=
    List.Nodup.subperm h1 (fun x hx => List.mem_dedup.mpr (h2 x hx))
  obtain ⟨s, hs1, hs2⟩ := hsub
  exact List.mem_flatMap.mpr
    ⟨s, List.mem_sublists.mpr hs2, List.mem_permutations'.mpr hs1.symm⟩

/-- Everything `nodupLists ns` enumerates is duplicate-free and drawn
from `ns`. -/
theorem of_mem_nodupLists {c ns : List String} (h : c ∈ nodupLists ns) :
    c.Nodup ∧ ∀ x ∈ c, x ∈ ns := by
  obtain ⟨s, hs, hp⟩ := List.mem_flatMap.mp h
  have hsub : List.Sublist s ns.dedup := List.mem_sublists.mp hs
  have hperm : List.Perm c s := List.mem_permutations'.mp hp
  have hnd : s.Nodup := hsub.nodup (List.nodup_dedup ns)
  refine ⟨hperm.nodup_iff.mpr hnd, fun x hx => ?_⟩
  exact List.mem_dedup.mp (hsub.subset (hperm.subset hx))

/-- The indexed consecutive-edge check coincides with `List.Chain'` of
the edge relation. -/
theorem chain'_iff_edgeAll (g : Digraph) (p : List String) :
    ((List.range (p.length - 1)).all
      (fun i => decide ((p.getD i "", p.getD (i + 1) "") ∈ g.edges))) = true ↔
      List.Chain' (EdgeRel g) p := by
  rw [List.all_eq_true, List.chain'_iff_get]
  constructor
  · intro h i hi
    have h1 : i < p.length := by omega
    have h2 : i + 1 < p.length := by omega
    have h3 := h i (List.mem_range.mpr hi)
    rw [decide_eq_true_eq, List.getD_eq_getElem p "" h1, List.getD_eq_getElem p "" h2] at h3
    show (p.get _, p.get _) ∈ g.edges
    simpa [List.get_eq_getElem] using h3
  · intro h i hi
    have hi' : i < p.length - 1 := List.mem_range.mp hi
    have h1 : i < p.length := by omega
    have h2 : i + 1 < p.length := by omega
    rw [decide_eq_true_eq, List.getD_eq_getElem p "" h1, List.getD_eq_getElem p "" h2]
    have h3 := h i hi'
    simpa [List.get_eq_getElem] using h3

/-- Unfolding of `pathCheck` into its propositional components. -/
theorem pathCheck_iff (g : Digraph) (s t : String) (p : List String) :
    pathCheck g s t p = true ↔
      2 ≤ p.length ∧ p.head? = some s ∧ p.getLast? = some t ∧
        List.Chain' (EdgeRel g) p := by
  unfold pathCheck
  rw [Bool.and_eq_true, Bool.and_eq_true, Bool.and_eq_true, chain'_iff_edgeAll g p]
  rw [decide_eq_true_eq, beq_iff_eq, beq_iff_eq]
  constructor
  · rintro ⟨⟨⟨h1, h2⟩, h3⟩, h4⟩; exact ⟨h1, h2, h3, h4⟩
  · rintro ⟨h1, h2, h3, h4⟩; exact ⟨⟨⟨h1, h2⟩, h3⟩, h4⟩

/-- Membership in the modelled `nx.all_simple_paths` output is exactly
being a simple path of the graph from `s` to `t`. -/
theorem mem_all_simple_paths {g : Digraph} {s t : String} {p : List String} :
    p ∈ all_simple_paths g s t ↔
      2 ≤ p.length ∧ p.head? = some s ∧ p.getLast? = some t ∧ p.Nodup ∧
        (∀ x ∈ p, x ∈ g.nodes) ∧ List.Chain' (EdgeRel g) p := by
  unfold all_simple_paths
  rw [List.mem_filter]
  constructor
  · rintro ⟨hm, hc⟩
    obtain ⟨hnd, hsub⟩ := of_mem_nodupLists hm
    obtain ⟨h1, h2, h3, h4⟩ := (pathCheck_iff g s t p).mp hc
    exact ⟨h1, h2, h3, hnd, hsub, h4⟩
  · rintro ⟨h1, h2, h3, hnd, hsub, hch⟩
    exact ⟨mem_nodupLists hnd hsub, (pathCheck_iff g s t p).mpr ⟨h1, h2, h3, hch⟩⟩

/-- A chain with given first and last elements witnesses reachability. -/
theorem reaches_of_chain' {r : String → String → Prop} :
    ∀ {p : List String} {u v : String}, List.Chain' r p → p.head? = some u →
      p.getLast? = some v → Relation.ReflTransGen r u v := by
  intro p
  induction p with
  | nil => intro u v _ hh _; simp at hh
  | cons a q ih =>
    intro u v hch hh hl
    rw [List.head?_cons, Option.some.injEq] at hh
    subst hh
    cases q with
    | nil =>
      have : a = v := by simpa using hl
      subst this
      exact Relation.ReflTransGen.refl
    | cons b q' =>
      have h1 : r a b := (List.chain'_cons.mp hch).1
      have h2 : List.Chain' r (b :: q') := (List.chain'_cons.mp hch).2
      have hl' : (b :: q').getLast? = some v := by
        simpa [List.getLast?_cons_cons] using hl
      exact Relation.ReflTransGen.head h1 (ih h2 rfl hl')

/-- From any walk between distinct endpoints a simple path can be
extracted; every node of that path is the start or the target of some
edge of the walk's relation. -/
theorem exists_simple_path {r : String → String → Prop} {u v : String}
    (h : Relation.ReflTransGen r u v) :
    u = v ∨ ∃ p : List String, p.head? = some u ∧ p.getLast? = some v ∧
      2 ≤ p.length ∧ p.Nodup ∧ List.Chain' r p ∧
      ∀ x ∈ p, x = u ∨ ∃ y, r y x := by
  induction h with
  | refl => exact Or.inl rfl
  | @tail b c hab hbc ih =>
    by_cases huc : u = c
    · exact Or.inl huc
    right
    rcases ih with hub | ⟨p, hh, hl, hlen, hnd, hch, hel⟩
    · subst hub
      refine ⟨[u, c], rfl, rfl, by simp, ?_, List.chain'_pair.mpr hbc, ?_⟩
      · simp [huc]
      · intro x hx
        rcases List.mem_pair.mp hx with rfl | rfl
        · exact Or.inl rfl
        · exact Or.inr ⟨u, hbc⟩
    · by_cases hcp : c ∈ p
      · obtain ⟨s, t', rfl⟩ := List.append_of_mem hcp
        have hs : s ≠ [] := by
          rintro rfl
          rw [List.nil_append, List.head?_cons, Option.some.injEq] at hh
          exact huc hh.symm
        have hsl : List.Sublist (s ++ [c]) (s ++ c :: t') :=
          List.Sublist.append_left
            (List.cons_sublist_cons.mpr (List.nil_sublist t')) s
        have hassoc : s ++ c :: t' = (s ++ [c]) ++ t' := by simp
        refine ⟨s ++ [c], ?_, ?_, ?_, ?_, ?_, ?_⟩
        · cases s with
          | nil => exact absurd rfl hs
          | cons a s' =>
            rw [List.cons_append, List.head?_cons]
            rw [List.cons_append, List.head?_cons] at hh
            exact hh
        · rw [List.getLast?_concat]
        · have : 1 ≤ s.length := List.length_pos.mpr hs
          rw [List.length_append, List.length_singleton]
          omega
        · exact List.Nodup.sublist hsl hnd
        · rw [hassoc] at hch
          exact (List.chain'_append.mp hch).1
        · intro x hx
          exact hel x (hsl.subset hx)
      · refine ⟨p ++ [c], ?_, ?_, ?_, ?_, ?_, ?_⟩
        · cases p with
          | nil => simp at hlen
          | cons a p' =>
            rw [List.cons_append, List.head?_cons]
            rw [List.head?_cons] at hh
            exact hh
        · rw [List.getLast?_concat]
        · rw [List.length_append, List.length_singleton]; omega
        · rw [List.nodup_append]
          refine ⟨hnd, List.nodup_singleton c, ?_⟩
          intro x hx hx'
          rw [List.mem_singleton] at hx'
          subst hx'
          exact hcp hx
        · rw [List.chain'_append]
          refine ⟨hch, List.chain'_singleton c, ?_⟩
          intro x hx y hy
          rw [hl, Option.mem_some_iff] at hx
          rw [List.head?_cons, Option.mem_some_iff] at hy
          subst hx; subst hy
          exact hbc
        · intro x hx
          rcases List.mem_append.mp hx with hx | hx
          · exact hel x hx
          · rw [List.mem_singleton] at hx
            subst hx
            exact Or.inr ⟨b, hbc⟩

/-- Correctness of the modelled `nx.has_path` on a well-formed graph:
it decides reachability. -/
theorem has_path_iff {g : Digraph}
    (hwf : ∀ e ∈ g.edges, e.1 ∈ g.nodes ∧ e.2 ∈ g.nodes)
    {u v : String} (hu : u ∈ g.nodes) :
    has_path g u v = true ↔ Reaches g u v := by
  unfold has_path
  rw [Bool.or_eq_true, beq_iff_eq]
  constructor
  · rintro (rfl | hne)
    · exact Relation.ReflTransGen.refl
    · have hne' : all_simple_paths g u v ≠ [] := by
        intro hnil
        rw [hnil] at hne
        simp at hne
      obtain ⟨p, hp⟩ := List.exists_mem_of_ne_nil _ hne'
      obtain ⟨_, hh, hl, _, _, hch⟩ := mem_all_simple_paths.mp hp
      exact reaches_of_chain' hch hh hl
  · intro h
    rcases exists_simple_path h with rfl | ⟨p, hh, hl, hlen, hnd, hch, hel⟩
    · exact Or.inl rfl
    right
    have hp : p ∈ all_simple_paths g u v := by
      rw [mem_all_simple_paths]
      refine ⟨hlen, hh, hl, hnd, ?_, hch⟩
      intro x hx
      rcases hel x hx with rfl | ⟨y, hy⟩
      · exact hu
      · exact (hwf (y, x) hy).2
    have : all_simple_paths g u v ≠ [] := List.ne_nil_of_mem hp
    simpa [List.isEmpty_iff] using this

/-- Node membership survives `addNode`. -/
theorem mem_nodes_addNode {g : Digraph} {x : String} (v : String)
    (h : x ∈ g.nodes) : x ∈ (addNode g v).nodes := by
  unfold addNode
  split
  · exact h
  · exact List.mem_append_left _ h

/-- The added node is a node. -/
theorem self_mem_addNode (g : Digraph) (v : String) : v ∈ (addNode g v).nodes := by
  unfold addNode
  split
  · assumption
  · exact List.mem_append_right _ (List.mem_singleton_self v)

/-- `addNode` does not change the edges. -/
theorem edges_addNode (g : Digraph) (v : String) : (addNode g v).edges = g.edges := by
  unfold addNode
  split <;> rfl

/-- Node membership survives `addEdge`. -/
theorem mem_nodes_addEdge {g : Digraph} {x : String} (a b : String)
    (h : x ∈ g.nodes) : x ∈ (addEdge g a b).nodes := by
  unfold addEdge
  have h1 : x ∈ (addNode (addNode g a) b).nodes :=
    mem_nodes_addNode b (mem_nodes_addNode a h)
  split <;> exact h1

/-- Edges after `addEdge` are the old ones or the added pair. -/
theorem mem_edges_addEdge {g : Digraph} {a b : String} {e : String × String}
    (h : e ∈ (addEdge g a b).edges) : e ∈ g.edges ∨ e = (a, b) := by
  unfold addEdge at h
  rw [edges_addNode, edges_addNode] at h
  split at h
  · rw [edges_addNode, edges_addNode] at h
    exact Or.inl h
  · simp only [edges_addNode] at h
    rcases List.mem_append.mp h with h | h
    · exact Or.inl h
    · exact Or.inr (List.mem_singleton.mp h)

/-- `addNode` preserves well-formedness. -/
theorem wf_addNode {g : Digraph} (v : String) (h : WF g) : WF (addNode g v) := by
  intro e he
  rw [edges_addNode] at he
  exact ⟨mem_nodes_addNode v (h e he).1, mem_nodes_addNode v (h e he).2⟩

/-- `addEdge` preserves well-formedness. -/
theorem wf_addEdge {g : Digraph} (a b : String) (h : WF g) : WF (addEdge g a b) := by
  intro e he
  rcases mem_edges_addEdge he with he' | rfl
  · exact ⟨mem_nodes_addEdge a b (h e he').1, mem_nodes_addEdge a b (h e he').2⟩
  · constructor
    · show a ∈ (addEdge g a b).nodes
      unfold addEdge
      have : a ∈ (addNode (addNode g a) b).nodes :=
        mem_nodes_addNode b (self_mem_addNode g a)
      split <;> exact this
    · show b ∈ (addEdge g a b).nodes
      unfold addEdge
      have : b ∈ (addNode (addNode g a) b).nodes := self_mem_addNode _ b
      split <;> exact this

/-- The node-insertion pass puts every registry key among the nodes. -/
theorem mem_foldl_addNode (l : Registry) :
    ∀ (g0 : Digraph) (x : String), (x ∈ g0.nodes ∨ x ∈ regKeys l) →
      x ∈ (l.foldl (fun g kv => addNode g kv.1) g0).nodes := by
  induction l with
  | nil =>
    intro g0 x h
    rcases h with h | h
    · exact h
    · simp [regKeys] at h
  | cons kv rest ih =>
    intro g0 x h
    rw [List.foldl_cons]
    apply ih
    rcases h with h | h
    · exact Or.inl (mem_nodes_addNode _ h)
    · simp only [regKeys, List.map_cons, List.mem_cons] at h
      rcases h with heq | h'
      · rw [heq]
        exact Or.inl (self_mem_addNode g0 kv.1)
      · exact Or.inr h'

/-- The node-insertion pass adds no edges. -/
theorem edges_foldl_addNode (l : Registry) (g0 : Digraph) :
    (l.foldl (fun g kv => addNode g kv.1) g0).edges = g0.edges :=
  foldl_proj_eq Digraph.edges _ (fun a b => edges_addNode a b.1) l g0

/-- The built dependency graph is well-formed. -/
theorem build_wf (reg : Registry) : WF (build_dependency_graph reg) := by
  unfold build_dependency_graph
  apply foldl_invariant WF _ reg
  · intro g kv _ hg
    apply foldl_invariant WF _ kv.2.terragrunt_dependencies
    · intro g' dep _ hg'
      split
      · exact wf_addEdge _ _ hg'
      · exact hg'
    apply foldl_invariant WF _ kv.2.dependencies
    · intro g' dep _ hg'
      split
      · exact wf_addEdge _ _ hg'
      · exact hg'
    exact hg
  · apply foldl_invariant WF _ reg
    · intro g kv _ hg
      exact wf_addNode _ hg
    intro e he
    simp at he

/-- Every registry key is a node of the built graph. -/
theorem build_nodes_of_key (reg : Registry) (x : String) (h : x ∈ regKeys reg) :
    x ∈ (build_dependency_graph reg).nodes := by
  unfold build_dependency_graph
  apply foldl_invariant (fun (g : Digraph) => x ∈ g.nodes) _ reg
  · intro g kv _ hg
    apply foldl_invariant (fun (g : Digraph) => x ∈ g.nodes) _ kv.2.terragrunt_dependencies
    · intro g' dep _ hg'
      split
      · exact mem_nodes_addEdge _ _ hg'
      · exact hg'
    apply foldl_invariant (fun (g : Digraph) => x ∈ g.nodes) _ kv.2.dependencies
    · intro g' dep _ hg'
      split
      · exact mem_nodes_addEdge _ _ hg'
      · exact hg'
    exact hg
  · exact mem_foldl_addNode reg _ x (Or.inr h)

/-- Both endpoints of every built edge are registry keys. -/
theorem build_edges_keys (reg : Registry) :
    ∀ e ∈ (build_dependency_graph reg).edges, e.1 ∈ regKeys reg ∧ e.2 ∈ regKeys reg := by
  unfold build_dependency_graph
  apply foldl_invariant
    (fun (g : Digraph) => ∀ e ∈ g.edges, e.1 ∈ regKeys reg ∧ e.2 ∈ regKeys reg) _ reg
  · intro g kv hkv hg
    have hkey : kv.1 ∈ regKeys reg := List.mem_map.mpr ⟨kv, hkv, rfl⟩
    apply foldl_invariant
      (fun (g : Digraph) => ∀ e ∈ g.edges, e.1 ∈ regKeys reg ∧ e.2 ∈ regKeys reg) _
      kv.2.terragrunt_dependencies
    · intro g' dep _ hg'
      split
      · intro e he
        rcases mem_edges_addEdge he with he' | rfl
        · exact hg' e he'
        · exact ⟨by assumption, hkey⟩
      · exact hg'
    apply foldl_invariant
      (fun (g : Digraph) => ∀ e ∈ g.edges, e.1 ∈ regKeys reg ∧ e.2 ∈ regKeys reg) _
      kv.2.dependencies
    · intro g' dep _ hg'
      split
      · intro e he
        rcases mem_edges_addEdge he with he' | rfl
        · exact hg' e he'
        · exact ⟨by assumption, hkey⟩
      · exact hg'
    exact hg
  · intro e he
    rw [edges_foldl_addNode] at he
    simp at he

/-- The boolean cycle check holds of any propositional elementary
cycle. -/
theorem cycleCheck_eq_true {g : Digraph} {c : List String} (hne : c ≠ [])
    (h : ∀ i, i < c.length → (c.getD i "", c.getD ((i + 1) % c.length) "") ∈ g.edges) :
    cycleCheck g c = true := by
  unfold cycleCheck
  rw [Bool.and_eq_true]
  constructor
  · rw [Bool.not_eq_true']
    simpa [List.isEmpty_iff] using hne
  · rw [List.all_eq_true]
    intro i hi
    rw [decide_eq_true_eq]
    exact h i (List.mem_range.mp hi)

end Helpers

/-- C1: for every module name `M` present in the registry,
`analyze_impact` returns exactly the module names reachable from `M`
along directed edges of the built graph, excluding `M` itself; in
particular `M` is never a member of its own impact set. -/
theorem claim_C1 (reg : Registry) (M : String) (hM : M ∈ regKeys reg) :
    (∀ v, v ∈ analyze_impact reg (build_dependency_graph reg) M ↔
      (v ≠ M ∧ Reaches (build_dependency_graph reg) M v)) ∧
    M ∉ analyze_impact reg (build_dependency_graph reg) M := by
  have hwf : WF (build_dependency_graph reg) := build_wf reg
  have hMn : M ∈ (build_dependency_graph reg).nodes := build_nodes_of_key reg M hM
  have hiff : ∀ v, v ∈ analyze_impact reg (build_dependency_graph reg) M ↔
      (v ≠ M ∧ Reaches (build_dependency_graph reg) M v) := by
    intro v
    unfold analyze_impact
    rw [if_pos hM]
    simp only [List.mem_map, List.mem_filter]
    constructor
    · rintro ⟨kv, ⟨_, hcond⟩, rfl⟩
      rw [decide_eq_true_eq] at hcond
      exact ⟨hcond.1, (has_path_iff hwf hMn).mp hcond.2⟩
    · rintro ⟨hne, hr⟩
      have hv : v ∈ regKeys reg := by
        rcases Relation.ReflTransGen.cases_tail hr with heq | ⟨w, _, hw⟩
        · exact absurd heq hne
        · exact (build_edges_keys reg (w, v) hw).2
      obtain ⟨kv, hkvmem, hkv1⟩ := List.mem_map.mp hv
      refine ⟨kv, ⟨hkvmem, ?_⟩, hkv1⟩
      rw [decide_eq_true_eq, hkv1]
      exact ⟨hne, (has_path_iff hwf hMn).mpr hr⟩
  exact ⟨hiff, fun hMm => ((hiff M).mp hMm).1 rfl⟩

/-- Witness for C1 at the concrete registry `c1Reg`. -/
theorem claim_C1_witness :
    "A" ∈ regKeys c1Reg ∧
      ((∀ v, v ∈ analyze_impact c1Reg (build_dependency_graph c1Reg) "A" ↔
        (v ≠ "A" ∧ Reaches (build_dependency_graph c1Reg) "A" v)) ∧
      "A" ∉ analyze_impact c1Reg (build_dependency_graph c1Reg) "A") :=
  ⟨by decide, claim_C1 c1Reg "A" (by decide)⟩

/-- C2: cycle detection returns, for every elementary cycle of the
built graph (given by its node sequence with all cyclically consecutive
pairs being edges, a self-loop counting as a cycle of length 1), at
least one rotation of that cycle — full enumeration, not mere existence
detection. -/
theorem claim_C2 (g : Digraph) (c : List String) (hne : c ≠ [])
    (hnd : c.Nodup) (hsub : ∀ x ∈ c, x ∈ g.nodes)
    (hcyc : ∀ i, i < c.length →
      (c.getD i "", c.getD ((i + 1) % c.length) "") ∈ g.edges) :
    ∃ k, c.rotate k ∈ detect_circular_dependencies g := by
  refine ⟨0, ?_⟩
  rw [List.rotate_zero]
  unfold detect_circular_dependencies simple_cycles
  rw [List.mem_filter]
  exact ⟨mem_nodupLists hnd hsub, cycleCheck_eq_true hne hcyc⟩

/-- Witness for C2: the synthetic 3-cycle `A→B→C→A`; the detected cycle
`["A","B","C"]` has node set exactly A, B, C. -/
theorem claim_C2_witness :
    ∃ k, (["A", "B", "C"].rotate k) ∈
      detect_circular_dependencies
        ⟨["A", "B", "C"], [("A", "B"), ("B", "C"), ("C", "A")]⟩ :=
  claim_C2 ⟨["A", "B", "C"], [("A", "B"), ("B", "C"), ("C", "A")]⟩
    ["A", "B", "C"] (by decide) (by decide) (by decide) (by decide)

/-- C8: the complexity scorer strictly increases when one element is
appended to `dependencies`, `terragrunt_dependencies` (the external
dependencies), or `data_sources`, all other fields held constant. -/
theorem claim_C8 (m : ModuleInfo) (x : String) :
    calculate_complexity_score m <
      calculate_complexity_score { m with dependencies := m.dependencies ++ [x] } ∧
    calculate_complexity_score m <
      calculate_complexity_score
        { m with terragrunt_dependencies := m.terragrunt_dependencies ++ [x] } ∧
    calculate_complexity_score m <
      calculate_complexity_score { m with data_sources := m.data_sources ++ [x] } := by
  refine ⟨?_, ?_, ?_⟩ <;>
    simp only [calculate_complexity_score, List.length_append, List.length_singleton] <;>
    omega

/-- Splitting at a unique separator character is injective. -/
theorem mem_sep_inj : ∀ (a b c d : List Char), '>' ∉ a → '>' ∉ c →
    a ++ '>' :: b = c ++ '>' :: d → a = c ∧ b = d := by
  intro a
  induction a with
  | nil =>
    intro b c d _ hc h
    cases c with
    | nil =>
      rw [List.nil_append, List.nil_append] at h
      injection h with _ h2
      exact ⟨rfl, h2⟩
    | cons x c' =>
      rw [List.nil_append, List.cons_append] at h
      injection h with h1 _
      exact absurd (h1 ▸ List.mem_cons_self x c') hc
  | cons y a' ih =>
    intro b c d ha hc h
    cases c with
    | nil =>
      rw [List.cons_append, List.nil_append] at h
      injection h with h1 _
      exact absurd (h1 ▸ List.mem_cons_self y a') ha
    | cons z c' =>
      rw [List.cons_append, List.cons_append] at h
      injection h with h1 h2
      have hr := ih b c' d (fun hm => ha (List.mem_cons_of_mem _ hm))
        (fun hm => hc (List.mem_cons_of_mem _ hm)) h2
      exact ⟨by rw [h1, hr.1], hr.2⟩

/-- The `"source->target"` key construction is injective on names not
containing `>`. -/
theorem keyString_inj {s t s' t' : String} (hs : '>' ∉ s.data) (hs' : '>' ∉ s'.data)
    (h : s ++ "->" ++ t = s' ++ "->" ++ t') : s = s' ∧ t = t' := by
  have hdata : ((s ++ "->") ++ t).data = ((s' ++ "->") ++ t').data := by rw [h]
  rw [String.data_append, String.data_append, String.data_append, String.data_append]
    at hdata
  have harr : ("->" : String).data = ['-', '>'] := rfl
  rw [harr] at hdata
  have hsh : ∀ (u v : List Char), (u ++ ['-', '>']) ++ v = (u ++ ['-']) ++ '>' :: v := by
    intro u v
    simp
  rw [hsh, hsh] at hdata
  have hno : '>' ∉ s.data ++ ['-'] := by
    intro hm
    rcases List.mem_append.mp hm with hm | hm
    · exact hs hm
    · simp at hm
  have hno' : '>' ∉ s'.data ++ ['-'] := by
    intro hm
    rcases List.mem_append.mp hm with hm | hm
    · exact hs' hm
    · simp at hm
  obtain ⟨he1, he2⟩ := mem_sep_inj _ _ _ _ hno hno' hdata
  have hsd : s.data = s'.data := by
    have := he1
    rwa [List.append_left_inj] at this
  constructor
  · cases s
    cases s'
    exact congrArg String.mk hsd
  · cases t
    cases t'
    exact congrArg String.mk he2

/-- Membership characterization of the path-analysis mapping. -/
theorem mem_adp_iff {reg : Registry} {g : Digraph} {kv : String × List (List String)} :
    kv ∈ analyze_dependency_paths reg g ↔
      ∃ a ∈ reg, ∃ b ∈ reg, a.1 ≠ b.1 ∧ all_simple_paths g a.1 b.1 ≠ [] ∧
        kv = (a.1 ++ "->" ++ b.1, all_simple_paths g a.1 b.1) := by
  unfold analyze_dependency_paths
  rw [List.mem_flatMap]
  constructor
  · rintro ⟨a, ha, hmem⟩
    rw [List.mem_flatMap] at hmem
    obtain ⟨b, hb, hmem⟩ := hmem
    refine ⟨a, ha, b, hb, ?_⟩
    split at hmem
    · split at hmem
      · simp at hmem
      · refine ⟨by assumption, ?_, List.mem_singleton.mp hmem⟩
        intro hnil
        simp [hnil] at *
    · simp at hmem
  · rintro ⟨a, ha, b, hb, hne, hps, rfl⟩
    refine ⟨a, ha, ?_⟩
    rw [List.mem_flatMap]
    refine ⟨b, hb, ?_⟩
    rw [if_pos hne, if_neg ?_]
    · exact List.mem_singleton_self _
    · intro hemp
      rw [List.isEmpty_iff] at hemp
      exact hps hemp

/-- C7: for distinct registry modules `source` and `target` (with names
not containing `>` so the `"source->target"` keys cannot collide), the
mapping has a key for the pair iff at least one simple path exists, in
which case its value is the list of all simple paths; pairs with no
path are simply omitted and no empty entry is ever produced. -/
theorem claim_C7 (reg : Registry) (g : Digraph) (s t : String)
    (hgt : ∀ k ∈ regKeys reg, '>' ∉ k.data)
    (hs : s ∈ regKeys reg) (ht : t ∈ regKeys reg) (hst : s ≠ t) :
    C7Conclusion reg g s t := by
  have keyinj : ∀ {a b : String × ModuleInfo}, a ∈ reg → b ∈ reg →
      a.1 ++ "->" ++ b.1 = s ++ "->" ++ t → a.1 = s ∧ b.1 = t := by
    intro a b ha hb h
    exact keyString_inj (hgt a.1 (List.mem_map.mpr ⟨a, ha, rfl⟩))
      (hgt s hs) h
  refine ⟨⟨?_, ?_⟩, ?_, ?_, fun p => mem_all_simple_paths⟩
  · rintro ⟨v, hv⟩
    obtain ⟨a, ha, b, hb, hne, hps, heq⟩ := mem_adp_iff.mp hv
    have hkey : a.1 ++ "->" ++ b.1 = s ++ "->" ++ t :=
      (congrArg Prod.fst heq).symm
    obtain ⟨h1, h2⟩ := keyinj ha hb hkey
    rw [h1, h2] at hps
    exact hps
  · intro hps
    obtain ⟨a, ha, ha1⟩ := List.mem_map.mp hs
    obtain ⟨b, hb, hb1⟩ := List.mem_map.mp ht
    refine ⟨all_simple_paths g s t, mem_adp_iff.mpr ⟨a, ha, b, hb, ?_, ?_, ?_⟩⟩
    · rw [ha1, hb1]
      exact hst
    · rw [ha1, hb1]
      exact hps
    · rw [ha1, hb1]
  · intro v hv
    obtain ⟨a, ha, b, hb, hne, hps, heq⟩ := mem_adp_iff.mp hv
    have hkey : a.1 ++ "->" ++ b.1 = s ++ "->" ++ t :=
      (congrArg Prod.fst heq).symm
    obtain ⟨h1, h2⟩ := keyinj ha hb hkey
    have hv2 : v = all_simple_paths g a.1 b.1 := congrArg Prod.snd heq
    rw [h1, h2] at hv2
    exact hv2
  · intro kv hkv
    obtain ⟨a, ha, b, hb, hne, hps, rfl⟩ := mem_adp_iff.mp hkv
    exact hps

/-- C7 counterexample: with module names containing `>`, the key
`"a->b->c"` is present although no path from `a` to `b->c` exists (the
entry was produced by the colliding pair `("a->b", "c")`), so "contains
the key source->target iff a simple path exists" fails as stated. -/
theorem claim_C7_counterexample :
    ("a" ++ "->" ++ "b->c") ∈
      (analyze_dependency_paths c7CexReg (build_dependency_graph c7CexReg)).map Prod.fst ∧
    all_simple_paths (build_dependency_graph c7CexReg) "a" "b->c" = [] := by
  decide

/-- Witness for C7 at the concrete registry `c7Reg` and pair `(A, B)`. -/
theorem claim_C7_witness :
    (∀ k ∈ regKeys c7Reg, '>' ∉ k.data) ∧ "A" ∈ regKeys c7Reg ∧
      "B" ∈ regKeys c7Reg ∧ ("A" : String) ≠ "B" ∧
      C7Conclusion c7Reg (build_dependency_graph c7Reg) "A" "B" :=
  ⟨by decide, by decide, by decide, by decide,
    claim_C7 c7Reg (build_dependency_graph c7Reg) "A" "B"
      (by decide) (by decide) (by decide) (by decide)⟩

/-- Fields `varModuleStep` leaves unchanged. -/
theorem varModuleStep_fields (fp : String) (a : ModuleInfo) (r : String × String) :
    (varModuleStep fp a r).name = a.name ∧
    (varModuleStep fp a r).outputs = a.outputs ∧
    (varModuleStep fp a r).resources = a.resources ∧
    (varModuleStep fp a r).variables_ = a.variables_ ∧
    (varModuleStep fp a r).complexity_score = a.complexity_score ∧
    (varModuleStep fp a r).data_sources = a.data_sources ∧
    (varModuleStep fp a r).terragrunt_dependencies = a.terragrunt_dependencies := by
  unfold varModuleStep
  split <;> exact ⟨rfl, rfl, rfl, rfl, rfl, rfl, rfl⟩

/-- Fields `varDataStep` leaves unchanged. -/
theorem varDataStep_fields (fp : String) (a : ModuleInfo) (r : String × String × String) :
    (varDataStep fp a r).name = a.name ∧
    (varDataStep fp a r).outputs = a.outputs ∧
    (varDataStep fp a r).resources = a.resources ∧
    (varDataStep fp a r).variables_ = a.variables_ ∧
    (varDataStep fp a r).complexity_score = a.complexity_score ∧
    (varDataStep fp a r).dependencies = a.dependencies ∧
    (varDataStep fp a r).terragrunt_dependencies = a.terragrunt_dependencies :=
  ⟨rfl, rfl, rfl, rfl, rfl, rfl, rfl⟩

/-- Fields `varRemoteStep` leaves unchanged. -/
theorem varRemoteStep_fields (fp : String) (a : ModuleInfo) (r : String × String) :
    (varRemoteStep fp a r).name = a.name ∧
    (varRemoteStep fp a r).outputs = a.outputs ∧
    (varRemoteStep fp a r).resources = a.resources ∧
    (varRemoteStep fp a r).variables_ = a.variables_ ∧
    (varRemoteStep fp a r).complexity_score = a.complexity_score ∧
    (varRemoteStep fp a r).dependencies = a.dependencies ∧
    (varRemoteStep fp a r).data_sources = a.data_sources ∧
    (varRemoteStep fp a r).terragrunt_dependencies = a.terragrunt_dependencies :=
  ⟨rfl, rfl, rfl, rfl, rfl, rfl, rfl, rfl⟩

/-- Fields `extractModuleStep` leaves unchanged. -/
theorem extractModuleStep_fields (fp : String) (a : ModuleInfo) (r : String × String) :
    (extractModuleStep fp a r).name = a.name ∧
    (extractModuleStep fp a r).outputs = a.outputs ∧
    (extractModuleStep fp a r).resources = a.resources ∧
    (extractModuleStep fp a r).variables_ = a.variables_ ∧
    (extractModuleStep fp a r).complexity_score = a.complexity_score ∧
    (extractModuleStep fp a r).data_sources = a.data_sources ∧
    (extractModuleStep fp a r).terragrunt_dependencies = a.terragrunt_dependencies := by
  unfold extractModuleStep
  split <;> exact ⟨rfl, rfl, rfl, rfl, rfl, rfl, rfl⟩

/-- Fields `tgDependencyStep` leaves unchanged. -/
theorem tgDependencyStep_fields (fp : String) (a : ModuleInfo)
    (dep : String × Option String) :
    (tgDependencyStep fp a dep).name = a.name ∧
    (tgDependencyStep fp a dep).outputs = a.outputs ∧
    (tgDependencyStep fp a dep).resources = a.resources ∧
    (tgDependencyStep fp a dep).variables_ = a.variables_ ∧
    (tgDependencyStep fp a dep).complexity_score = a.complexity_score ∧
    (tgDependencyStep fp a dep).data_sources = a.data_sources ∧
    (tgDependencyStep fp a dep).dependencies = a.dependencies := by
  unfold tgDependencyStep
  rcases dep with ⟨n, cp⟩
  cases cp with
  | none => exact ⟨rfl, rfl, rfl, rfl, rfl, rfl, rfl⟩
  | some cp =>
    simp only []
    split
    · split <;> exact ⟨rfl, rfl, rfl, rfl, rfl, rfl, rfl⟩
    · exact ⟨rfl, rfl, rfl, rfl, rfl, rfl, rfl⟩

/-- Fields `analyze_variable_dependencies` leaves unchanged. -/
theorem avd_fields (m : ModuleInfo) (s fp : String) :
    (analyze_variable_dependencies m s fp).name = m.name ∧
    (analyze_variable_dependencies m s fp).outputs = m.outputs ∧
    (analyze_variable_dependencies m s fp).resources = m.resources ∧
    (analyze_variable_dependencies m s fp).variables_ = m.variables_ ∧
    (analyze_variable_dependencies m s fp).complexity_score = m.complexity_score ∧
    (analyze_variable_dependencies m s fp).terragrunt_dependencies =
      m.terragrunt_dependencies := by
  unfold analyze_variable_dependencies
  refine ⟨?_, ?_, ?_, ?_, ?_, ?_⟩
  · rw [foldl_proj_eq ModuleInfo.name (varRemoteStep fp)
        (fun a b => (varRemoteStep_fields fp a b).1),
      foldl_proj_eq ModuleInfo.name (varDataStep fp)
        (fun a b => (varDataStep_fields fp a b).1),
      foldl_proj_eq ModuleInfo.name (varModuleStep fp)
        (fun a b => (varModuleStep_fields fp a b).1)]
  · rw [foldl_proj_eq ModuleInfo.outputs (varRemoteStep fp)
        (fun a b => (varRemoteStep_fields fp a b).2.1),
      foldl_proj_eq ModuleInfo.outputs (varDataStep fp)
        (fun a b => (varDataStep_fields fp a b).2.1),
      foldl_proj_eq ModuleInfo.outputs (varModuleStep fp)
        (fun a b => (varModuleStep_fields fp a b).2.1)]
  · rw [foldl_proj_eq ModuleInfo.resources (varRemoteStep fp)
        (fun a b => (varRemoteStep_fields fp a b).2.2.1),
      foldl_proj_eq ModuleInfo.resources (varDataStep fp)
        (fun a b => (varDataStep_fields fp a b).2.2.1),
      foldl_proj_eq ModuleInfo.resources (varModuleStep fp)
        (fun a b => (varModuleStep_fields fp a b).2.2.1)]
  · rw [foldl_proj_eq ModuleInfo.variables_ (varRemoteStep fp)
        (fun a b => (varRemoteStep_fields fp a b).2.2.2.1),
      foldl_proj_eq ModuleInfo.variables_ (varDataStep fp)
        (fun a b => (varDataStep_fields fp a b).2.2.2.1),
      foldl_proj_eq ModuleInfo.variables_ (varModuleStep fp)
        (fun a b => (varModuleStep_fields fp a b).2.2.2.1)]
  · rw [foldl_proj_eq ModuleInfo.complexity_score (varRemoteStep fp)
        (fun a b => (varRemoteStep_fields fp a b).2.2.2.2.1),
      foldl_proj_eq ModuleInfo.complexity_score (varDataStep fp)
        (fun a b => (varDataStep_fields fp a b).2.2.2.2.1),
      foldl_proj_eq ModuleInfo.complexity_score (varModuleStep fp)
        (fun a b => (varModuleStep_fields fp a b).2.2.2.2.1)]
  · rw [foldl_proj_eq ModuleInfo.terragrunt_dependencies (varRemoteStep fp)
        (fun a b => (varRemoteStep_fields fp a b).2.2.2.2.2.2.2),
      foldl_proj_eq ModuleInfo.terragrunt_dependencies (varDataStep fp)
        (fun a b => (varDataStep_fields fp a b).2.2.2.2.2.2),
      foldl_proj_eq ModuleInfo.terragrunt_dependencies (varModuleStep fp)
        (fun a b => (varModuleStep_fields fp a b).2.2.2.2.2.2)]

/-- The data-source and remote-state passes leave `dependencies`
unchanged. -/
theorem avd_dependencies_eq (m1 : ModuleInfo) (s fp : String) :
    ((findallRemoteState s).foldl (varRemoteStep fp)
      ((findallData s).foldl (varDataStep fp) m1)).dependencies = m1.dependencies := by
  rw [foldl_proj_eq ModuleInfo.dependencies (varRemoteStep fp)
      (fun a b => (varRemoteStep_fields fp a b).2.2.2.2.2.1),
    foldl_proj_eq ModuleInfo.dependencies (varDataStep fp)
      (fun a b => (varDataStep_fields fp a b).2.2.2.2.2.1)]

/-- Fields `extract_module_dependencies` leaves unchanged. -/
theorem emd_fields (m : ModuleInfo) (s fp : String) :
    (extract_module_dependencies m s fp).name = m.name ∧
    (extract_module_dependencies m s fp).outputs = m.outputs ∧
    (extract_module_dependencies m s fp).resources = m.resources ∧
    (extract_module_dependencies m s fp).complexity_score = m.complexity_score := by
  unfold extract_module_dependencies
  refine ⟨?_, ?_, ?_, ?_⟩
  · rw [foldl_proj_eq ModuleInfo.name (extractModuleStep fp)
      (fun a b => (extractModuleStep_fields fp a b).1)]
  · rw [foldl_proj_eq ModuleInfo.outputs (extractModuleStep fp)
      (fun a b => (extractModuleStep_fields fp a b).2.1)]
  · rw [foldl_proj_eq ModuleInfo.resources (extractModuleStep fp)
      (fun a b => (extractModuleStep_fields fp a b).2.2.1)]
  · rw [foldl_proj_eq ModuleInfo.complexity_score (extractModuleStep fp)
      (fun a b => (extractModuleStep_fields fp a b).2.2.2.2.1)]

/-- Fields the whole dependency-block loop leaves unchanged. -/
theorem tgDepFold_fields (fp : String) (l : List (String × Option String)) (m : ModuleInfo) :
    (l.foldl (tgDependencyStep fp) m).name = m.name ∧
    (l.foldl (tgDependencyStep fp) m).outputs = m.outputs ∧
    (l.foldl (tgDependencyStep fp) m).resources = m.resources ∧
    (l.foldl (tgDependencyStep fp) m).variables_ = m.variables_ ∧
    (l.foldl (tgDependencyStep fp) m).dependencies = m.dependencies := by
  refine ⟨?_, ?_, ?_, ?_, ?_⟩
  · rw [foldl_proj_eq ModuleInfo.name (tgDependencyStep fp)
      (fun a b => (tgDependencyStep_fields fp a b).1)]
  · rw [foldl_proj_eq ModuleInfo.outputs (tgDependencyStep fp)
      (fun a b => (tgDependencyStep_fields fp a b).2.1)]
  · rw [foldl_proj_eq ModuleInfo.resources (tgDependencyStep fp)
      (fun a b => (tgDependencyStep_fields fp a b).2.2.1)]
  · rw [foldl_proj_eq ModuleInfo.variables_ (tgDependencyStep fp)
      (fun a b => (tgDependencyStep_fields fp a b).2.2.2.1)]
  · rw [foldl_proj_eq ModuleInfo.dependencies (tgDependencyStep fp)
      (fun a b => (tgDependencyStep_fields fp a b).2.2.2.2.2.2)]

/-- C3 counterexample: after analysis of a terraform file declaring one
module block, the registry holds a descriptor whose stored
`complexity_score` (never computed on this code path, hence 0) differs
from the specified formula (which yields 1). -/
theorem claim_C3_counterexample :
    ∃ kv ∈ registryOf [] [c3File],
      kv.2.complexity_score ≠ specComplexityFormula kv.2 := by decide

/-- C3 (amended): a descriptor returned by `parse_terragrunt_file`
satisfies the specified complexity formula (its `outputs` and
`resources` are still empty at that point), computed once at the end of
that file's parse; a descriptor created from an inline terraform module
block keeps the dataclass default score 0, and no later recomputation
happens. -/
theorem claim_C3_amended :
    (∀ (f : TGFile) (m : ModuleInfo), parse_terragrunt_file f = some m →
      m.complexity_score = specComplexityFormula m) ∧
    (∀ (dp fp : String) (b : TFModuleBlock),
      (processTFModuleBlock dp fp b).complexity_score = 0) := by
  constructor
  · intro f m h
    unfold parse_terragrunt_file at h
    cases hc : f.content with
    | none => rw [hc] at h; simp at h
    | some p =>
      rw [hc, Option.map_some', Option.some.injEq] at h
      subst h
      have hres : (tgDescriptor f p).resources = [] := by
        unfold tgDescriptor
        cases hi : p.inputs with
        | some ins =>
          rw [(avd_fields _ _ _).2.2.1]
          exact (tgDepFold_fields _ _ _).2.2.1
        | none => exact (tgDepFold_fields _ _ _).2.2.1
      have hout : (tgDescriptor f p).outputs = [] := by
        unfold tgDescriptor
        cases hi : p.inputs with
        | some ins =>
          rw [(avd_fields _ _ _).2.1]
          exact (tgDepFold_fields _ _ _).2.1
        | none => exact (tgDepFold_fields _ _ _).2.1
      show (setScore (tgDescriptor f p)).complexity_score =
        specComplexityFormula (setScore (tgDescriptor f p))
      unfold setScore specComplexityFormula calculate_complexity_score
      rw [hres]
      simp only [List.length_nil]
      omega
  · intro dp fp b
    unfold processTFModuleBlock
    rw [(emd_fields _ _ _).2.2.2]
    cases b.variables_ with
    | some vs =>
      rw [(avd_fields _ _ _).2.2.2.2.1]
      rfl
    | none => rfl

/-- Witness for the amended C3 at the concrete file `c3TGFile`. -/
theorem claim_C3_witness :
    parse_terragrunt_file c3TGFile = some c3Module ∧
      c3Module.complexity_score = specComplexityFormula c3Module :=
  ⟨by decide, claim_C3_amended.1 c3TGFile c3Module (by decide)⟩

/-- C4 counterexample: a dependency block whose `config_path` ends in
the containing module's own name produces an external-dependency
(`terragrunt`) reference record with `source_module = target_module`, a
`terragrunt_dependencies` entry, and a self-loop edge in the built
graph. -/
theorem claim_C4_counterexample :
    ((parse_terragrunt_file c4File).map (fun m =>
      (m.terragrunt_dependencies,
        m.dependency_details.map
          (fun r => (r.dependency_type, r.source_module, r.target_module))))) =
      some (["A"], [("terragrunt", "A", "A")]) ∧
    ("A", "A") ∈ (build_dependency_graph (registryOf [c4File] [])).edges := by
  decide

/-- C4 (amended): for references produced by the `module.<name>.<attr>`
idioms (kinds `module_output` and `module_reference`) the self-match is
discarded, so `sourceModule ≠ targetModule` and no dependency-list
entry naming the module itself is added; the external-dependency
(terragrunt) extraction performs no such filtering (see the
counterexample). -/
theorem claim_C4_amended :
    (∀ (m : ModuleInfo) (s fp : String),
      (∀ r ∈ (analyze_variable_dependencies m s fp).dependency_details,
        r ∈ m.dependency_details ∨
          (r.dependency_type = "module_output" → r.source_module ≠ r.target_module)) ∧
      (∀ x ∈ (analyze_variable_dependencies m s fp).dependencies,
        x ∈ m.dependencies ∨ x ≠ m.name)) ∧
    (∀ (m : ModuleInfo) (s fp : String),
      (∀ r ∈ (extract_module_dependencies m s fp).dependency_details,
        r ∈ m.dependency_details ∨
          (r.dependency_type = "module_reference" ∧
            r.source_module ≠ r.target_module)) ∧
      (∀ x ∈ (extract_module_dependencies m s fp).dependencies,
        x ∈ m.dependencies ∨ x ≠ m.name)) := by
  constructor
  · intro m s fp
    unfold analyze_variable_dependencies
    have hbase : invC4 m m := ⟨rfl, fun r hr => Or.inl hr, fun x hx => Or.inl hx⟩
    have h1 : invC4 m ((findallModule s).foldl (varModuleStep fp) m) := by
      apply foldl_invariant (invC4 m) _ _ _ _ hbase
      intro a b _ ha
      obtain ⟨hn, hd, hdep⟩ := ha
      unfold varModuleStep
      split
      · refine ⟨hn, ?_, ?_⟩
        · intro r hr
          rcases List.mem_append.mp hr with hr | hr
          · exact hd r hr
          · rw [List.mem_singleton] at hr
            subst hr
            refine Or.inr (fun _ he => ?_)
            have he' : a.name = b.1 := he
            exact (by assumption : ¬ b.1 = a.name) he'.symm
        · intro x hx
          rcases List.mem_append.mp hx with hx | hx
          · exact hdep x hx
          · rw [List.mem_singleton] at hx
            refine Or.inr ?_
            rw [hx, ← hn]
            exact (by assumption : ¬ b.1 = a.name)
      · exact ⟨hn, hd, hdep⟩
    have h2 : invC4 m
        ((findallData s).foldl (varDataStep fp)
          ((findallModule s).foldl (varModuleStep fp) m)) := by
      apply foldl_invariant (invC4 m) _ _ _ _ h1
      intro a b _ ha
      obtain ⟨hn, hd, hdep⟩ := ha
      refine ⟨hn, ?_, hdep⟩
      intro r hr
      rcases List.mem_append.mp hr with hr | hr
      · exact hd r hr
      · rw [List.mem_singleton] at hr
        subst hr
        refine Or.inr (fun habs => ?_)
        have habs' : ("data_source" : String) = "module_output" := habs
        exact absurd habs' (by decide)
    have h3 : invC4 m
        ((findallRemoteState s).foldl (varRemoteStep fp)
          ((findallData s).foldl (varDataStep fp)
            ((findallModule s).foldl (varModuleStep fp) m))) := by
      apply foldl_invariant (invC4 m) _ _ _ _ h2
      intro a b _ ha
      obtain ⟨hn, hd, hdep⟩ := ha
      refine ⟨hn, ?_, hdep⟩
      intro r hr
      rcases List.mem_append.mp hr with hr | hr
      · exact hd r hr
      · rw [List.mem_singleton] at hr
        subst hr
        refine Or.inr (fun habs => ?_)
        have habs' : ("remote_state" : String) = "module_output" := habs
        exact absurd habs' (by decide)
    exact ⟨h3.2.1, h3.2.2⟩
  · intro m s fp
    unfold extract_module_dependencies
    have hbase : invC4' m m := ⟨rfl, fun r hr => Or.inl hr, fun x hx => Or.inl hx⟩
    have h1 : invC4' m ((findallModule s).foldl (extractModuleStep fp) m) := by
      apply foldl_invariant (invC4' m) _ _ _ _ hbase
      intro a b _ ha
      obtain ⟨hn, hd, hdep⟩ := ha
      unfold extractModuleStep
      split
      · refine ⟨hn, ?_, ?_⟩
        · intro r hr
          rcases List.mem_append.mp hr with hr | hr
          · exact hd r hr
          · rw [List.mem_singleton] at hr
            subst hr
            refine Or.inr ⟨rfl, fun he => ?_⟩
            have he' : a.name = b.1 := he
            exact (by assumption : ¬ b.1 = a.name) he'.symm
        · intro x hx
          rcases List.mem_append.mp hx with hx | hx
          · exact hdep x hx
          · rw [List.mem_singleton] at hx
            refine Or.inr ?_
            rw [hx, ← hn]
            exact (by assumption : ¬ b.1 = a.name)
      · exact ⟨hn, hd, hdep⟩
    exact ⟨h1.2.1, h1.2.2⟩

/-- Witness for the amended C4: the record extracted for `module.B.y`
inside module `A` satisfies the invariant. -/
theorem claim_C4_witness :
    c4Rec ∈ (analyze_variable_dependencies c4M c4Str "f").dependency_details ∧
      (c4Rec ∈ c4M.dependency_details ∨
        (c4Rec.dependency_type = "module_output" →
          c4Rec.source_module ≠ c4Rec.target_module)) :=
  ⟨by decide, (claim_C4_amended.1 c4M c4Str "f").1 c4Rec (by decide)⟩

/-- C6 counterexample: a span matching both the data-source and the
remote-state pattern is double-counted — the extraction emits a
`data_source` record (and a `dataSources` entry
`terraform_remote_state.vpc`) as well as the `remote_state` record,
contradicting "only the remote-state record is kept".  -/
theorem claim_C6_counterexample :
    (analyze_variable_dependencies (mkModuleInfo "A" "" "/r/A")
        (pyDictStr c6Input) "f").data_sources = ["terraform_remote_state.vpc"] ∧
    ((analyze_variable_dependencies (mkModuleInfo "A" "" "/r/A")
        (pyDictStr c6Input) "f").dependency_details.map
      (fun d => (d.dependency_type, d.target_module))) =
      [("data_source", "terraform_remote_state.vpc"),
       ("remote_state", "remote_state.vpc")] := by
  decide

/-- C6 (amended): on a span matching both patterns, both rules fire
independently: the span yields a `data_source` record with target
`terraform_remote_state.<name>` (adding that name to `dataSources`) and
additionally the `remote_state` record; nothing is deduplicated.
Stated for the representative remote-state payload over an arbitrary
prior module state. -/
theorem claim_C6_amended (m : ModuleInfo) (fp : String) :
    (analyze_variable_dependencies m (pyDictStr c6Input) fp).data_sources =
      m.data_sources ++ ["terraform_remote_state.vpc"] ∧
    (analyze_variable_dependencies m (pyDictStr c6Input) fp).dependency_details =
      m.dependency_details ++
        [⟨m.name, "terraform_remote_state.vpc", "data_source",
          "data.terraform_remote_state.vpc.outputs", some fp⟩,
         ⟨m.name, "remote_state.vpc", "remote_state",
          "data.terraform_remote_state.vpc.outputs.id", some fp⟩] ∧
    (analyze_variable_dependencies m (pyDictStr c6Input) fp).dependencies =
      m.dependencies := by
  have h1 : findallModule (pyDictStr c6Input) = [] := by decide
  have h2 : findallData (pyDictStr c6Input) =
      [("terraform_remote_state", "vpc", "outputs")] := by decide
  have h3 : findallRemoteState (pyDictStr c6Input) = [("vpc", "id")] := by decide
  unfold analyze_variable_dependencies
  rw [h1, h2, h3]
  refine ⟨rfl, ?_, rfl⟩
  show m.dependency_details ++ [_] ++ [_] = _
  rw [List.append_assoc]
  rfl

/-- A key of `setReg reg k v` is an old key or `k`. -/
theorem mem_regKeys_setReg : ∀ {reg : Registry} {k : String} {v : ModuleInfo}
    {x : String}, x ∈ regKeys (setReg reg k v) → x ∈ regKeys reg ∨ x = k := by
  intro reg
  induction reg with
  | nil =>
    intro k v x h
    simp only [setReg, regKeys, List.map_cons, List.map_nil, List.mem_singleton] at h
    exact Or.inr h
  | cons kv rest ih =>
    intro k v x h
    unfold setReg at h
    split at h
    · simp only [regKeys, List.map_cons, List.mem_cons] at h ⊢
      rcases h with rfl | h
      · exact Or.inr rfl
      · exact Or.inl (Or.inr h)
    · simp only [regKeys, List.map_cons, List.mem_cons] at h ⊢
      rcases h with rfl | h
      · exact Or.inl (Or.inl rfl)
      · rcases ih h with h | h
        · exact Or.inl (Or.inr h)
        · exact Or.inr h

/-- `updateReg` never changes the key sequence. -/
theorem regKeys_updateReg : ∀ (reg : Registry) (k : String)
    (f : ModuleInfo → ModuleInfo), regKeys (updateReg reg k f) = regKeys reg := by
  intro reg
  induction reg with
  | nil => intro k f; rfl
  | cons kv rest ih =>
    intro k f
    unfold updateReg
    split
    · rfl
    · simp only [regKeys, List.map_cons]
      rw [show List.map Prod.fst (updateReg rest k f) = regKeys (updateReg rest k f) from rfl,
        ih]
      rfl

/-- The data-source pass never changes the key sequence. -/
theorem regKeys_analyze_data (d c fp : String) (reg : Registry) :
    regKeys (analyze_data_source_dependencies d c fp reg) = regKeys reg := by
  unfold analyze_data_source_dependencies
  exact foldl_proj_eq regKeys _
    (fun a b => by
      split
      · exact regKeys_updateReg a b.1 _
      · rfl) _ reg

/-- The output pass never changes the key sequence. -/
theorem regKeys_analyze_output (v : String) (reg : Registry) :
    regKeys (analyze_output_dependencies v reg) = regKeys reg := by
  unfold analyze_output_dependencies
  exact foldl_proj_eq regKeys _
    (fun a b => by
      split
      · exact regKeys_updateReg a b.1 _
      · rfl) _ reg

/-- The resource pass never changes the key sequence. -/
theorem regKeys_analyze_resource (t c fp : String) (reg : Registry) :
    regKeys (analyze_resource_dependencies t c fp reg) = regKeys reg := by
  unfold analyze_resource_dependencies
  exact foldl_proj_eq regKeys _
    (fun a b => by
      split
      · exact regKeys_updateReg a b.1 _
      · rfl) _ reg

/-- The data-block loop never changes the key sequence. -/
theorem regKeys_dataFold (fp : String) (l : List (String × String)) (r0 : Registry) :
    regKeys (l.foldl (fun reg d => analyze_data_source_dependencies d.1 d.2 fp reg) r0) =
      regKeys r0 :=
  foldl_proj_eq regKeys _ (fun a b => regKeys_analyze_data b.1 b.2 fp a) l r0

/-- The output-block loop never changes the key sequence. -/
theorem regKeys_outputFold (l : List (String × Option String)) (r0 : Registry) :
    regKeys (l.foldl
        (fun reg o =>
          match o.2 with
          | some v => analyze_output_dependencies v reg
          | none => reg) r0) =
      regKeys r0 :=
  foldl_proj_eq regKeys _
    (fun a b => by
      cases hb : b.2 with
      | some v => simp only [hb]; exact regKeys_analyze_output v a
      | none => simp only [hb]) l r0

/-- The resource-block loop never changes the key sequence. -/
theorem regKeys_resourceFold (fp : String) (l : List (String × String)) (r0 : Registry) :
    regKeys (l.foldl (fun reg r => analyze_resource_dependencies r.1 r.2 fp reg) r0) =
      regKeys r0 :=
  foldl_proj_eq regKeys _ (fun a b => regKeys_analyze_resource b.1 b.2 fp a) l r0

/-- Keys contributed by the module-block loop. -/
theorem mem_keys_moduleFold (dp fp : String) :
    ∀ (l : List TFModuleBlock) (r0 : Registry) (x : String),
      x ∈ regKeys (l.foldl
        (fun reg b => setReg reg b.name (processTFModuleBlock dp fp b)) r0) →
      x ∈ regKeys r0 ∨ x ∈ l.map TFModuleBlock.name := by
  intro l
  induction l with
  | nil => intro r0 x hx; exact Or.inl hx
  | cons b bs ih =>
    intro r0 x hx
    rw [List.foldl_cons] at hx
    rcases ih _ x hx with hx' | hx'
    · rcases mem_regKeys_setReg hx' with h | h
      · exact Or.inl h
      · refine Or.inr ?_
        rw [List.map_cons, h]
        exact List.mem_cons_self _ _
    · refine Or.inr ?_
      rw [List.map_cons]
      exact List.mem_cons_of_mem _ hx'

/-- Keys after processing one terraform file: old keys or declared
module-block names of that file. -/
theorem mem_keys_processTF {f : TFFile} {reg : Registry} {x : String}
    (h : x ∈ regKeys (processTerraformFile reg f)) :
    x ∈ regKeys reg ∨
      ∃ p, f.content = some p ∧ x ∈ p.moduleBlocks.map TFModuleBlock.name := by
  unfold processTerraformFile at h
  cases hc : f.content with
  | none => rw [hc] at h; exact Or.inl h
  | some p =>
    rw [hc] at h
    rw [regKeys_resourceFold, regKeys_outputFold, regKeys_dataFold] at h
    rcases mem_keys_moduleFold f.dirPath f.filePath p.moduleBlocks reg x h with h | h
    · exact Or.inl h
    · exact Or.inr ⟨p, rfl, h⟩

/-- A parsed terragrunt file yields a descriptor named after its
directory. -/
theorem parse_terragrunt_name {f : TGFile} {m : ModuleInfo}
    (h : parse_terragrunt_file f = some m) : m.name = f.dirName := by
  unfold parse_terragrunt_file at h
  cases hc : f.content with
  | none => rw [hc] at h; simp at h
  | some p =>
    rw [hc, Option.map_some', Option.some.injEq] at h
    subst h
    show (tgDescriptor f p).name = f.dirName
    unfold tgDescriptor
    cases p.inputs with
    | some ins =>
      rw [(avd_fields _ _ _).1]
      show (p.dependencyBlocks.foldl (tgDependencyStep f.filePath)
        (mkModuleInfo f.dirName (p.terraformSource.getD "") f.dirPath)).name = f.dirName
      rw [(tgDepFold_fields _ _ _).1]
      rfl
    | none =>
      rw [(tgDepFold_fields _ _ _).1]
      rfl

/-- A successful terragrunt parse implies the file content was parsed. -/
theorem parse_terragrunt_content {f : TGFile} {m : ModuleInfo}
    (h : parse_terragrunt_file f = some m) : ∃ p, f.content = some p := by
  unfold parse_terragrunt_file at h
  cases hc : f.content with
  | none => rw [hc] at h; simp at h
  | some p => exact ⟨p, rfl⟩

/-- Every key of the final registry is a name some discovered file
defines: no dangling descriptors are ever created. -/
theorem mem_keys_registryOf {tg : List TGFile} {tf : List TFFile} {x : String}
    (h : x ∈ regKeys (registryOf tg tf)) : x ∈ definedNames tg tf := by
  unfold registryOf at h
  have htf : ∀ (l : List TFFile) (r0 : Registry) (x : String),
      x ∈ regKeys (l.foldl processTerraformFile r0) →
      x ∈ regKeys r0 ∨
        ∃ f ∈ l, ∃ p, f.content = some p ∧ x ∈ p.moduleBlocks.map TFModuleBlock.name := by
    intro l
    induction l with
    | nil => intro r0 x hx; exact Or.inl hx
    | cons f fs ih =>
      intro r0 x hx
      rw [List.foldl_cons] at hx
      rcases ih _ x hx with hx' | ⟨f', hf', hp⟩
      · rcases mem_keys_processTF hx' with h' | ⟨p, hcp, hn⟩
        · exact Or.inl h'
        · exact Or.inr ⟨f, List.mem_cons_self _ _, p, hcp, hn⟩
      · exact Or.inr ⟨f', List.mem_cons_of_mem _ hf', hp⟩
  have htg : ∀ (l : List TGFile) (r0 : Registry) (x : String),
      x ∈ regKeys (l.foldl
        (fun reg f =>
          match parse_terragrunt_file f with
          | some m => setReg reg m.name m
          | none => reg) r0) →
      x ∈ regKeys r0 ∨ ∃ f ∈ l, (∃ p, f.content = some p) ∧ x = f.dirName := by
    intro l
    induction l with
    | nil => intro r0 x hx; exact Or.inl hx
    | cons f fs ih =>
      intro r0 x hx
      rw [List.foldl_cons] at hx
      rcases ih _ x hx with hx' | ⟨f', hf', hp⟩
      · cases hpf : parse_terragrunt_file f with
        | none => rw [hpf] at hx'; exact Or.inl hx'
        | some m =>
          rw [hpf] at hx'
          rcases mem_regKeys_setReg hx' with h' | h'
          · exact Or.inl h'
          · refine Or.inr ⟨f, List.mem_cons_self _ _, parse_terragrunt_content hpf, ?_⟩
            rw [h', parse_terragrunt_name hpf]
      · exact Or.inr ⟨f', List.mem_cons_of_mem _ hf', hp⟩
  rcases htf tf _ x h with h' | ⟨f, hf, p, hcp, hn⟩
  · rcases htg tg [] x h' with h'' | ⟨f, hf, ⟨p, hcp⟩, rfl⟩
    · simp [regKeys] at h''
    · unfold definedNames
      refine List.mem_append_left _ ?_
      exact List.mem_filterMap.mpr ⟨f, hf, by rw [hcp]; rfl⟩
  · unfold definedNames
    refine List.mem_append_right _ ?_
    refine List.mem_flatMap.mpr ⟨f, hf, ?_⟩
    rw [hcp]
    exact hn

/-- `varModuleStep` only extends `dependencies`. -/
theorem varModuleStep_dep_mono (fp : String) (a : ModuleInfo) (b : String × String)
    (x : String) (hx : x ∈ a.dependencies) : x ∈ (varModuleStep fp a b).dependencies := by
  unfold varModuleStep
  split
  · exact List.mem_append_left _ hx
  · exact hx

/-- `varModuleStep` only extends `dependency_details`. -/
theorem varModuleStep_det_mono (fp : String) (a : ModuleInfo) (b : String × String)
    (d : DependencyInfo) (hd : d ∈ a.dependency_details) :
    d ∈ (varModuleStep fp a b).dependency_details := by
  unfold varModuleStep
  split
  · exact List.mem_append_left _ hd
  · exact hd

/-- `varDataStep` only extends `dependency_details`. -/
theorem varDataStep_det_mono (fp : String) (a : ModuleInfo) (b : String × String × String)
    (d : DependencyInfo) (hd : d ∈ a.dependency_details) :
    d ∈ (varDataStep fp a b).dependency_details :=
  List.mem_append_left _ hd

/-- `varRemoteStep` only extends `dependency_details`. -/
theorem varRemoteStep_det_mono (fp : String) (a : ModuleInfo) (b : String × String)
    (d : DependencyInfo) (hd : d ∈ a.dependency_details) :
    d ∈ (varRemoteStep fp a b).dependency_details :=
  List.mem_append_left _ hd

/-- Every foreign module reference found by the module-reference loop
ends up in `dependencies` with a matching `module_output` record. -/
theorem varModuleFold_records (fp nm : String) :
    ∀ (l : List (String × String)) (acc : ModuleInfo), acc.name = nm →
      ∀ r ∈ l, r.1 ≠ nm →
        r.1 ∈ (l.foldl (varModuleStep fp) acc).dependencies ∧
        ∃ d ∈ (l.foldl (varModuleStep fp) acc).dependency_details,
          d.target_module = r.1 ∧ d.dependency_type = "module_output" := by
  intro l
  induction l with
  | nil =>
    intro acc _ r hr
    simp at hr
  | cons a as ih =>
    intro acc hname r hr hne
    rw [List.foldl_cons]
    rcases List.mem_cons.mp hr with rfl | hr'
    · have hguard : r.1 ≠ acc.name := by rw [hname]; exact hne
      have hstep1 : r.1 ∈ (varModuleStep fp acc r).dependencies := by
        unfold varModuleStep
        rw [if_pos hguard]
        exact List.mem_append_right _ (List.mem_singleton_self _)
      have hstep2 : ∃ d ∈ (varModuleStep fp acc r).dependency_details,
          d.target_module = r.1 ∧ d.dependency_type = "module_output" := by
        unfold varModuleStep
        rw [if_pos hguard]
        exact ⟨_, List.mem_append_right _ (List.mem_singleton_self _), rfl, rfl⟩
      constructor
      · exact foldl_proj_mem ModuleInfo.dependencies (varModuleStep fp)
          (fun a' b' x hx => varModuleStep_dep_mono fp a' b' x hx) as _ _ hstep1
      · obtain ⟨d, hd, h1, h2⟩ := hstep2
        exact ⟨d, foldl_proj_mem ModuleInfo.dependency_details (varModuleStep fp)
          (fun a' b' x hx => varModuleStep_det_mono fp a' b' x hx) as _ _ hd, h1, h2⟩
    · exact ih (varModuleStep fp acc a)
        (by rw [(varModuleStep_fields fp acc a).1]; exact hname) r hr' hne

/-- Every foreign module reference in a variables payload is recorded
in the analyzed module's `dependencies` and `dependency_details`. -/
theorem avd_records (m : ModuleInfo) (vs fp : String) :
    ∀ r ∈ findallModule vs, r.1 ≠ m.name →
      r.1 ∈ (analyze_variable_dependencies m vs fp).dependencies ∧
      ∃ d ∈ (analyze_variable_dependencies m vs fp).dependency_details,
        d.target_module = r.1 ∧ d.dependency_type = "module_output" := by
  intro r hr hne
  unfold analyze_variable_dependencies
  have base := varModuleFold_records fp m.name (findallModule vs) m rfl r hr hne
  constructor
  · rw [avd_dependencies_eq]
    exact base.1
  · obtain ⟨d, hd, h1, h2⟩ := base.2
    refine ⟨d, ?_, h1, h2⟩
    apply foldl_proj_mem ModuleInfo.dependency_details (varRemoteStep fp)
      (fun a' b' x hx => varRemoteStep_det_mono fp a' b' x hx)
    apply foldl_proj_mem ModuleInfo.dependency_details (varDataStep fp)
      (fun a' b' x hx => varDataStep_det_mono fp a' b' x hx)
    exact hd

/-- C5 (amended): a module name that no discovered file defines never
gains a registry descriptor (the code creates no dangling descriptors)
and never touches a graph edge; nevertheless every foreign
`module.<name>.<attr>` reference in a parsed terragrunt file is
recorded in the issuing module's dependency list with a `module_output`
reference record. -/
theorem claim_C5_amended (tg : List TGFile) (tf : List TFFile) (t : String)
    (ht : t ∉ definedNames tg tf) :
    t ∉ regKeys (registryOf tg tf) ∧
    (∀ e ∈ (build_dependency_graph (registryOf tg tf)).edges, e.1 ≠ t ∧ e.2 ≠ t) ∧
    (∀ (f : TGFile) (p : TGParsed) (m : ModuleInfo), f.content = some p →
      parse_terragrunt_file f = some m →
      ∀ r ∈ findallModule (pyDictStr (p.inputs.getD [])), r.1 ≠ f.dirName →
        r.1 ∈ m.dependencies ∧
        ∃ d ∈ m.dependency_details, d.target_module = r.1 ∧
          d.dependency_type = "module_output") := by
  have hkey : t ∉ regKeys (registryOf tg tf) := fun hk => ht (mem_keys_registryOf hk)
  refine ⟨hkey, ?_, ?_⟩
  · intro e he
    have := build_edges_keys (registryOf tg tf) e he
    exact ⟨fun h1 => hkey (h1 ▸ this.1), fun h2 => hkey (h2 ▸ this.2)⟩
  · intro f p m hcp hpm r hr hne
    unfold parse_terragrunt_file at hpm
    rw [hcp, Option.map_some', Option.some.injEq] at hpm
    subst hpm
    show r.1 ∈ (tgDescriptor f p).dependencies ∧
      ∃ d ∈ (tgDescriptor f p).dependency_details, d.target_module = r.1 ∧
        d.dependency_type = "module_output"
    unfold tgDescriptor
    cases hi : p.inputs with
    | none =>
      rw [hi] at hr
      have : findallModule (pyDictStr []) = [] := by decide
      rw [show (Option.getD (none : Option (List (String × String))) [] : List (String × String)) = [] from rfl, this] at hr
      simp at hr
    | some ins =>
      rw [hi] at hr
      have hname : ({ p.dependencyBlocks.foldl (tgDependencyStep f.filePath)
          (mkModuleInfo f.dirName (p.terraformSource.getD "") f.dirPath) with
            variables_ := ins } : ModuleInfo).name = f.dirName := by
        show (p.dependencyBlocks.foldl (tgDependencyStep f.filePath)
          (mkModuleInfo f.dirName (p.terraformSource.getD "") f.dirPath)).name = f.dirName
        rw [(tgDepFold_fields _ _ _).1]
        rfl
      exact avd_records _ (pyDictStr ins) f.filePath r hr (by rw [hname]; exact hne)

/-- C5 counterexample: module `B` is referenced by `A` (it appears in
`A`'s dependency list) but no file defines it, and the registry after
analysis contains no descriptor named `B` — only `A`. -/
theorem claim_C5_counterexample :
    regKeys (registryOf [c5File] []) = ["A"] ∧
    ((registryOf [c5File] []).map (fun kv => kv.2.dependencies)) = [["B"]] := by
  decide

/-- Witness for the amended C5: `B` is undefined and indeed absent from
the registry. -/
theorem claim_C5_witness :
    "B" ∉ definedNames [c5File] [] ∧ "B" ∉ regKeys (registryOf [c5File] []) :=
  ⟨by decide, (claim_C5_amended [c5File] [] "B" (by decide)).1⟩

/-- C9: a malformed file (one whose parse raises) is skipped and the
report equals the one computed over the remaining files alone — for
terragrunt files and terraform files alike; a single malformed file
never aborts the run. -/
theorem claim_C9 :
    (∀ (tg1 tg2 : List TGFile) (tf : List TFFile) (f : TGFile), f.content = none →
      analyze (tg1 ++ f :: tg2) tf = analyze (tg1 ++ tg2) tf) ∧
    (∀ (tg : List TGFile) (tf1 tf2 : List TFFile) (f : TFFile), f.content = none →
      analyze tg (tf1 ++ f :: tf2) = analyze tg (tf1 ++ tf2)) := by
  have hreg1 : ∀ (tg1 tg2 : List TGFile) (tf : List TFFile) (f : TGFile),
      f.content = none →
      registryOf (tg1 ++ f :: tg2) tf = registryOf (tg1 ++ tg2) tf := by
    intro tg1 tg2 tf f hf
    unfold registryOf
    congr 1
    rw [List.foldl_append, List.foldl_append, List.foldl_cons]
    have hpf : parse_terragrunt_file f = none := by
      unfold parse_terragrunt_file
      rw [hf]
      rfl
    simp only [hpf]
  have hreg2 : ∀ (tg : List TGFile) (tf1 tf2 : List TFFile) (f : TFFile),
      f.content = none →
      registryOf tg (tf1 ++ f :: tf2) = registryOf tg (tf1 ++ tf2) := by
    intro tg tf1 tf2 f hf
    unfold registryOf
    rw [List.foldl_append, List.foldl_append, List.foldl_cons]
    have hpf : processTerraformFile
        (List.foldl processTerraformFile
          (tg.foldl
            (fun reg f =>
              match parse_terragrunt_file f with
              | some m => setReg reg m.name m
              | none => reg) []) tf1) f =
        List.foldl processTerraformFile
          (tg.foldl
            (fun reg f =>
              match parse_terragrunt_file f with
              | some m => setReg reg m.name m
              | none => reg) []) tf1 := by
      unfold processTerraformFile
      rw [hf]
    rw [hpf]
  constructor
  · intro tg1 tg2 tf f hf
    unfold analyze
    rw [hreg1 tg1 tg2 tf f hf]
  · intro tg tf1 tf2 f hf
    unfold analyze
    rw [hreg2 tg tf1 tf2 f hf]

/-- Witness for C9: dropping the malformed file leaves the report
unchanged. -/
theorem claim_C9_witness :
    c9BadTG.content = none ∧
      analyze ([] ++ c9BadTG :: []) [] = analyze ([] ++ []) [] :=
  ⟨rfl, claim_C9.1 [] [] [] c9BadTG rfl⟩

/-- `setReg` preserves key uniqueness. -/
theorem nodup_regKeys_setReg : ∀ (reg : Registry) (k : String) (v : ModuleInfo),
    (regKeys reg).Nodup → (regKeys (setReg reg k v)).Nodup := by
  intro reg
  induction reg with
  | nil =>
    intro k v _
    simp [setReg, regKeys]
  | cons kv rest ih =>
    intro k v h
    simp only [regKeys, List.map_cons, List.nodup_cons] at h
    unfold setReg
    split
    · simp only [regKeys, List.map_cons, List.nodup_cons]
      refine ⟨?_, h.2⟩
      rw [show ((kv.1 = k) : Prop) from by assumption] at h
      exact h.1
    · simp only [regKeys, List.map_cons, List.nodup_cons]
      constructor
      · intro hmem
        rcases mem_regKeys_setReg hmem with hm | hm
        · exact h.1 hm
        · exact (by assumption : ¬ kv.1 = k) hm
      · exact ih k v h.2

/-- The module-block loop preserves key uniqueness. -/
theorem nodup_moduleFold (dp fp : String) :
    ∀ (l : List TFModuleBlock) (r0 : Registry), (regKeys r0).Nodup →
      (regKeys (l.foldl
        (fun reg b => setReg reg b.name (processTFModuleBlock dp fp b)) r0)).Nodup := by
  intro l
  induction l with
  | nil => intro r0 h; exact h
  | cons b bs ih =>
    intro r0 h
    rw [List.foldl_cons]
    exact ih _ (nodup_regKeys_setReg r0 b.name _ h)

/-- Processing one terraform file preserves key uniqueness. -/
theorem nodup_keys_processTF (f : TFFile) (reg : Registry)
    (h : (regKeys reg).Nodup) : (regKeys (processTerraformFile reg f)).Nodup := by
  unfold processTerraformFile
  cases hc : f.content with
  | none => exact h
  | some p =>
    rw [regKeys_resourceFold, regKeys_outputFold, regKeys_dataFold]
    exact nodup_moduleFold f.dirPath f.filePath p.moduleBlocks reg h

/-- The final registry has pairwise distinct keys. -/
theorem nodup_keys_registryOf (tg : List TGFile) (tf : List TFFile) :
    (regKeys (registryOf tg tf)).Nodup := by
  unfold registryOf
  have htg : ∀ (l : List TGFile) (r0 : Registry), (regKeys r0).Nodup →
      (regKeys (l.foldl
        (fun reg f =>
          match parse_terragrunt_file f with
          | some m => setReg reg m.name m
          | none => reg) r0)).Nodup := by
    intro l
    induction l with
    | nil => intro r0 h; exact h
    | cons f fs ih =>
      intro r0 h
      rw [List.foldl_cons]
      cases hpf : parse_terragrunt_file f with
      | none => exact ih _ h
      | some m => exact ih _ (nodup_regKeys_setReg r0 m.name m h)
  have htf : ∀ (l : List TFFile) (r0 : Registry), (regKeys r0).Nodup →
      (regKeys (l.foldl processTerraformFile r0)).Nodup := by
    intro l
    induction l with
    | nil => intro r0 h; exact h
    | cons f fs ih =>
      intro r0 h
      rw [List.foldl_cons]
      exact ih _ (nodup_keys_processTF f r0 h)
  exact htf tf _ (htg tg [] (by simp [regKeys]))

/-- With duplicate-free keys, entries are determined by their key. -/
theorem keyed_unique : ∀ {reg : Registry}, (regKeys reg).Nodup →
    ∀ {a b : String × ModuleInfo}, a ∈ reg → b ∈ reg → a.1 = b.1 → a = b := by
  intro reg
  induction reg with
  | nil =>
    intro _ a b ha
    simp at ha
  | cons kv rest ih =>
    intro h a b ha hb heq
    simp only [regKeys, List.map_cons, List.nodup_cons] at h
    rcases List.mem_cons.mp ha with rfl | ha' <;> rcases List.mem_cons.mp hb with rfl | hb'
    · rfl
    · exact absurd (by rw [heq]; exact List.mem_map.mpr ⟨b, hb', rfl⟩) h.1
    · exact absurd (by rw [← heq]; exact List.mem_map.mpr ⟨a, ha', rfl⟩) h.1
    · exact ih h.2 ha' hb' heq

/-- C10: in the report produced by `analyze`, the buckets
`high_complexity` (score > 10), `medium_complexity` (5 < score ≤ 10)
and `low_complexity` (score ≤ 5) partition the module names: pairwise
disjoint with union the full module set. -/
theorem claim_C10 (tg : List TGFile) (tf : List TFFile) : C10Conclusion tg tf := by
  have hnd := nodup_keys_registryOf tg tf
  have hhigh : (analyze tg tf).high_complexity =
      ((registryOf tg tf).filter (fun kv => 10 < kv.2.complexity_score)).map Prod.fst := rfl
  have hmed : (analyze tg tf).medium_complexity =
      ((registryOf tg tf).filter
        (fun kv => 5 < kv.2.complexity_score ∧ kv.2.complexity_score ≤ 10)).map Prod.fst := rfl
  have hlow : (analyze tg tf).low_complexity =
      ((registryOf tg tf).filter (fun kv => kv.2.complexity_score ≤ 5)).map Prod.fst := rfl
  have hmod : (analyze tg tf).modules = registryOf tg tf := rfl
  refine ⟨?_, ?_, ?_, ?_⟩
  · intro n
    rw [hmod, hhigh, hmed, hlow]
    constructor
    · intro hn
      obtain ⟨kv, hkv, rfl⟩ := List.mem_map.mp hn
      by_cases h10 : 10 < kv.2.complexity_score
      · exact Or.inl (List.mem_map.mpr
          ⟨kv, List.mem_filter.mpr ⟨hkv, by rw [decide_eq_true_eq]; exact h10⟩, rfl⟩)
      by_cases h5 : 5 < kv.2.complexity_score
      · exact Or.inr (Or.inl (List.mem_map.mpr
          ⟨kv, List.mem_filter.mpr ⟨hkv, by rw [decide_eq_true_eq]; exact ⟨h5, by omega⟩⟩,
            rfl⟩))
      · exact Or.inr (Or.inr (List.mem_map.mpr
          ⟨kv, List.mem_filter.mpr ⟨hkv, by rw [decide_eq_true_eq]; omega⟩, rfl⟩))
    · intro hn
      rcases hn with hn | hn | hn <;>
      · obtain ⟨kv, hkv, rfl⟩ := List.mem_map.mp hn
        exact List.mem_map.mpr ⟨kv, (List.mem_filter.mp hkv).1, rfl⟩
  · intro n ⟨h1, h2⟩
    rw [hhigh] at h1
    rw [hmed] at h2
    obtain ⟨kv, hkv, rfl⟩ := List.mem_map.mp h1
    obtain ⟨kv', hkv', heq⟩ := List.mem_map.mp h2
    obtain ⟨hm, hp⟩ := List.mem_filter.mp hkv
    obtain ⟨hm', hp'⟩ := List.mem_filter.mp hkv'
    rw [decide_eq_true_eq] at hp hp'
    have := keyed_unique hnd hm' hm heq
    rw [this] at hp'
    omega
  · intro n ⟨h1, h2⟩
    rw [hhigh] at h1
    rw [hlow] at h2
    obtain ⟨kv, hkv, rfl⟩ := List.mem_map.mp h1
    obtain ⟨kv', hkv', heq⟩ := List.mem_map.mp h2
    obtain ⟨hm, hp⟩ := List.mem_filter.mp hkv
    obtain ⟨hm', hp'⟩ := List.mem_filter.mp hkv'
    rw [decide_eq_true_eq] at hp hp'
    have := keyed_unique hnd hm' hm heq
    rw [this] at hp'
    omega
  · intro n ⟨h1, h2⟩
    rw [hmed] at h1
    rw [hlow] at h2
    obtain ⟨kv, hkv, rfl⟩ := List.mem_map.mp h1
    obtain ⟨kv', hkv', heq⟩ := List.mem_map.mp h2
    obtain ⟨hm, hp⟩ := List.mem_filter.mp hkv
    obtain ⟨hm', hp'⟩ := List.mem_filter.mp hkv'
    rw [decide_eq_true_eq] at hp hp'
    have := keyed_unique hnd hm' hm heq
    rw [this] at hp'
    omega

/-- Witness for C10 at a concrete one-module analysis. -/
theorem claim_C10_witness : C10Conclusion [c10File] [] := claim_C10 [c10File] []

end TGAnalyzer
